import Mathlib

/-!
Verification of the task-orchestration and file-mutation core of the
`coding-agent` repository against its specification.

The Python sources are shallowly embedded: Python `dict`s become
insertion-ordered association lists, `datetime.now()` values are threaded in
as explicit parameters, and filesystem state is an explicit structure of
(resolved path ↦ content) maps.  Every definition follows the corresponding
source function; deviations forced by the embedding are noted in comments.
-/

set_option autoImplicit false

namespace CodingAgent

/-! ### Insertion-ordered dictionaries (Python `dict` semantics)

Assignment to an existing key keeps its position; a new key is appended.
Iteration order is the list order. -/

def dictGet {α : Type} : List (String × α) → String → Option α
  | [], _ => none
  | (k', v) :: rest, k => if k' = k then some v else dictGet rest k

def dictInsert {α : Type} : List (String × α) → String → α → List (String × α)
  | [], k, v => [(k, v)]
  | (k', v') :: rest, k, v =>
      if k' = k then (k, v) :: rest else (k', v') :: dictInsert rest k v

def dictContains {α : Type} (l : List (String × α)) (k : String) : Bool :=
  (dictGet l k).isSome

/-! ### Task model — `src/tasks/models.py`

Only the fields the core reads are carried; `datetime` values are modelled as
`Nat` ticks supplied by the caller, `estimated_hours` (a Python float used only
as a reporting hint) as `Nat`. -/

inductive TaskStatus : Type
  | pending
  | in_progress
  | completed
  | failed
  | blocked
  deriving DecidableEq, Repr

structure Task where
  id : String
  description : String
  target_files : List String
  dependencies : List String
  status : TaskStatus
  priority : Nat
  estimated_hours : Nat
  created_at : Nat
  updated_at : Nat
  started_at : Option Nat
  completed_at : Option Nat
  deriving DecidableEq, Repr

/-! ### State machine — `src/tasks/state_machine.py` -/

/-- The fixed transition table of `TaskStateMachine.__init__`.  `BLOCKED` has no
entry in the Python dict; `transitions.get(from_state, set())` yields the empty
set for it. -/
def transitions : TaskStatus → List TaskStatus
  | .pending => [.in_progress]
  | .in_progress => [.completed, .failed]
  | .failed => [.pending, .in_progress]
  | .completed => []
  | .blocked => []

/-- `TaskStateMachine.can_transition`. -/
def can_transition (from_state to_state : TaskStatus) : Bool :=
  (transitions from_state).contains to_state

/-! ### Task manager — `src/tasks/manager.py`

`TaskManager` holds the task dict plus the `networkx.DiGraph` (node list and
edge list, both insertion-ordered and duplicate-free, matching `add_node` /
`add_edge` semantics; the node attribute payload is never read by the code
under verification). -/

structure TaskManager where
  tasks : List (String × Task)
  nodes : List String
  edges : List (String × String)
  deriving DecidableEq, Repr

def emptyTM : TaskManager := { tasks := [], nodes := [], edges := [] }

def graphAddNode (tm : TaskManager) (n : String) : TaskManager :=
  { tm with nodes := if n ∈ tm.nodes then tm.nodes else tm.nodes ++ [n] }

def graphAddEdge (tm : TaskManager) (a b : String) : TaskManager :=
  let tm1 := graphAddNode (graphAddNode tm a) b
  { tm1 with edges := if (a, b) ∈ tm1.edges then tm1.edges else tm1.edges ++ [(a, b)] }

/-- One step of the dependency loop in `TaskManager.add_task`: the membership
test runs against the dict that already contains the task itself. -/
def addDepEdge (task_id : String) (acc : TaskManager) (dep_id : String) : TaskManager :=
  if dictContains acc.tasks dep_id then graphAddEdge acc dep_id task_id else acc

/-- `TaskManager.add_task`: insert into the dict, `add_node`, then the
dependency loop.  The source has no rejection path and returns `None`; the
embedding is accordingly a total state transformer. -/
def add_task (tm : TaskManager) (task : Task) : TaskManager :=
  task.dependencies.foldl (addDepEdge task.id)
    (graphAddNode { tm with tasks := dictInsert tm.tasks task.id task } task.id)

/-- The generator-with-filter inside `TaskManager.get_ready_tasks`: only
dependency ids present in `self.tasks` are tested. -/
def dependencies_met (tm : TaskManager) (task : Task) : Bool :=
  task.dependencies.all fun dep_id =>
    match dictGet tm.tasks dep_id with
    | some dep => dep.status == TaskStatus.completed
    | none => true

/-- `TaskManager.get_ready_tasks`. -/
def get_ready_tasks (tm : TaskManager) : List Task :=
  (tm.tasks.map Prod.snd).filter fun task =>
    task.status == TaskStatus.pending && dependencies_met tm task

/-- The mutations performed on the task object inside the accepted branch of
`update_task_status`: status, `updated_at`, and — depending on the entered
status — `completed_at` or `started_at`. -/
def applyStatusUpdate (task : Task) (status : TaskStatus) (now : Nat) : Task :=
  { task with
    status := status
    updated_at := now
    completed_at := if status = TaskStatus.completed then some now else task.completed_at
    started_at := if status = TaskStatus.in_progress then some now else task.started_at }

/-- `TaskManager.update_task_status`; `now` stands for the `datetime.now()`
calls (all within one successful update observe the same tick). -/
def update_task_status (tm : TaskManager) (task_id : String) (status : TaskStatus)
    (now : Nat) : Bool × TaskManager :=
  match dictGet tm.tasks task_id with
  | none => (false, tm)
  | some task =>
      if can_transition task.status status then
        (true, { tm with tasks := dictInsert tm.tasks task_id (applyStatusUpdate task status now) })
      else (false, tm)

/-! ### The dependency graph induced by the task table, and acyclicity.

Used to state C1's hypothesis "the dependency ids form a DAG": edge
`dep → t` for every `dep ∈ t.dependencies`, over the ids mentioned anywhere. -/

def depEdges (tm : TaskManager) : List (String × String) :=
  tm.tasks.flatMap fun p => p.2.dependencies.map fun d => (d, p.1)

def nodeIds (tm : TaskManager) : List String :=
  (tm.tasks.map Prod.fst ++ tm.tasks.flatMap fun p => p.2.dependencies).dedup

def succs (es : List (String × String)) (n : String) : List String :=
  es.filterMap fun e => if e.1 = n then some e.2 else none

def reachStep (es : List (String × String)) (s : List String) : List String :=
  (s ++ s.flatMap (succs es)).dedup

def reachN (es : List (String × String)) : Nat → List String → List String
  | 0, s => s
  | k + 1, s => reachN es k (reachStep es s)

/-- No node reaches itself through a nonempty edge path. -/
def formsDAG (tm : TaskManager) : Bool :=
  (nodeIds tm).all fun n =>
    !(reachN (depEdges tm) (nodeIds tm).length (succs (depEdges tm) n)).contains n

/-! ### Concrete task instances used by the scenario claims -/

def mkTask (id : String) (deps : List String) : Task :=
  { id := id, description := "", target_files := [], dependencies := deps,
    status := TaskStatus.pending, priority := 1, estimated_hours := 1,
    created_at := 0, updated_at := 0, started_at := none, completed_at := none }

def taskA : Task := mkTask "A" []

def taskB : Task := mkTask "B" ["A"]

def taskC : Task := mkTask "C" ["A"]

/-- A task whose single dependency id names no known task. -/
def taskB1 : Task := mkTask "B" ["A"]

def tmUnknownDep : TaskManager := add_task emptyTM taskB1

def taskD : Task := mkTask "D" ["Z"]

def taskD2 : Task := { mkTask "D" ["Z"] with description := "second version" }

def tmABC : TaskManager := add_task (add_task (add_task emptyTM taskA) taskB) taskC

/-- `tmABC` after the two legal updates `A → IN_PROGRESS` (tick 1) and
`A → COMPLETED` (tick 2). -/
def tmABCDone : TaskManager :=
  (update_task_status (update_task_status tmABC "A" TaskStatus.in_progress 1).2
    "A" TaskStatus.completed 2).2

/-- Single-task manager for the timestamp scenario. -/
def tmS0 : TaskManager := add_task emptyTM taskA

def tmS1 : TaskManager := (update_task_status tmS0 "A" TaskStatus.in_progress 1).2

def tmS2 : TaskManager := (update_task_status tmS1 "A" TaskStatus.failed 2).2

def tmS3 : TaskManager := (update_task_status tmS2 "A" TaskStatus.in_progress 3).2

/-- The task record produced by the successful update `A → IN_PROGRESS` at
tick 1. -/
def taskAStarted : Task :=
  { taskA with status := TaskStatus.in_progress, updated_at := 1, started_at := some 1 }

/-! ### Diff utilities — `src/file_manager/diff_utils.py`

`generate_diff` delegates to `difflib.unified_diff` (context 3, `lineterm`
`"\n"`, no file dates), which is ported here in full: `SequenceMatcher` with
`isjunk=None` (so the junk set is empty and the junk extension loop of
`find_longest_match` never fires — it is therefore omitted) and the `autojunk`
popularity filter.  Lines are `List Char`; dictionaries are association lists.
The queue loop of `get_matching_blocks` runs on explicit fuel
`len a + len b + 2`, an upper bound on its iteration count (each processed
interval of combined size `m` spawns children of combined size at most
`m - 2`). -/

abbrev Line := List Char

def strOfChars (l : List Char) : String := ⟨l⟩

def aGet {κ α : Type} [DecidableEq κ] : List (κ × α) → κ → Option α
  | [], _ => none
  | (k', v) :: rest, k => if k' = k then some v else aGet rest k

def aGetD {κ α : Type} [DecidableEq κ] (m : List (κ × α)) (k : κ) (d : α) : α :=
  (aGet m k).getD d

def aInsert {κ α : Type} [DecidableEq κ] : List (κ × α) → κ → α → List (κ × α)
  | [], k, v => [(k, v)]
  | (k', v') :: rest, k, v =>
      if k' = k then (k, v) :: rest else (k', v') :: aInsert rest k v

/-- Characters at which Python `str.splitlines` breaks a line. -/
def isLineBreakChar (c : Char) : Bool :=
  c = '\n' || c = '\r' || c.val = 0x0b || c.val = 0x0c || c.val = 0x1c ||
  c.val = 0x1d || c.val = 0x1e || c.val = 0x85 || c.val = 0x2028 || c.val = 0x2029

/-- Split at every break character, each terminating its own line.  A `"\r\n"`
pair shows up as a `['\r']` line followed by a `['\n']` line; `mergeCRLF`
below fuses exactly those, yielding `str.splitlines` semantics. -/
def splitBreak1 : List Char → List Line
  | [] => []
  | c :: rest =>
      if isLineBreakChar c then [c] :: splitBreak1 rest
      else
        match splitBreak1 rest with
        | [] => [[c]]
        | line :: lines => (c :: line) :: lines

/-- Fuse a line ending in `'\r'` with an immediately following lone `['\n']`
line.  A lone `['\n']` can only pair with the line before it and a fused line
ends in `'\n'`, so this bottom-up pass equals Python's left-to-right scan. -/
def mergeCRLF : List Line → List Line
  | [] => []
  | line :: rest =>
      match mergeCRLF rest with
      | [] => [line]
      | next :: rest2 =>
          if line.getLast? = some '\r' ∧ next = ['\n'] then (line ++ ['\n']) :: rest2
          else line :: next :: rest2

/-- `str.splitlines(keepends=True)`. -/
def splitlinesKeep (l : List Char) : List Line :=
  mergeCRLF (splitBreak1 l)

/-- Remove the line terminator (a single break character, or the `"\r\n"`
pair) that `splitlinesKeep` leaves at the end of every line but the last. -/
def stripEOL (line : Line) : Line :=
  if line.getLast? = some '\n' ∧ line.dropLast.getLast? = some '\r' then
    line.dropLast.dropLast
  else if (match line.getLast? with | some c => isLineBreakChar c | none => false) then
    line.dropLast
  else line

/-- `str.splitlines()` (terminators stripped). -/
def splitlinesStrip (l : List Char) : List Line :=
  (splitlinesKeep l).map stripEOL

/-- `SequenceMatcher.__chain_b`: `b2j` maps each line of `b` to its indices in
increasing order; with `autojunk` (always on) and `len(b) >= 200`, popular
lines are removed. -/
def chainB (b : List Line) : List (Line × List Nat) :=
  let m := (b.enum).foldl
    (fun m p =>
      match aGet m p.2 with
      | some js => aInsert m p.2 (js ++ [p.1])
      | none => m ++ [(p.2, [p.1])])
    []
  if b.length ≥ 200 then
    m.filter fun p => decide (¬ p.2.length > b.length / 100 + 1)
  else m

/-- The inner `for j in b2j.get(a[i], nothing)` loop of `find_longest_match`:
`continue` below `blo`, `break` at `bhi`, otherwise extend the diagonal run
(`j2len.get(j-1, 0) + 1`, with Python's `j-1 = -1` yielding the default 0)
and track the best match. -/
def innerLoop (blo bhi i : Nat) (j2len : List (Nat × Nat)) :
    List Nat → List (Nat × Nat) → Nat × Nat × Nat → List (Nat × Nat) × (Nat × Nat × Nat)
  | [], newj2len, best => (newj2len, best)
  | j :: js, newj2len, best =>
      if j < blo then innerLoop blo bhi i j2len js newj2len best
      else if bhi ≤ j then (newj2len, best)
      else
        let k := (if j = 0 then 0 else aGetD j2len (j - 1) 0) + 1
        let newj2len1 := aInsert newj2len j k
        -- `i-k+1` / `j-k+1` in Python; `k ≤ i+1` and `k ≤ j+1` hold because a
        -- diagonal run of length `k` ends at `(i, j)`, so the grouping
        -- `i+1-k` avoids truncated `Nat` subtraction.
        let best1 := if k > best.2.2 then (i + 1 - k, j + 1 - k, k) else best
        innerLoop blo bhi i j2len js newj2len1 best1

/-- First extension loop of `find_longest_match` (the junk variant never fires
because the junk set is empty).  The fuel starts at `besti`, which bounds the
number of decrements. -/
def extendLower (a b : List Line) (alo blo : Nat) :
    Nat → Nat × Nat × Nat → Nat × Nat × Nat
  | 0, st => st
  | fuel + 1, (besti, bestj, k) =>
      if alo < besti && blo < bestj &&
          (a.getD (besti - 1) [] == b.getD (bestj - 1) []) then
        extendLower a b alo blo fuel (besti - 1, bestj - 1, k + 1)
      else (besti, bestj, k)

/-- Second extension loop; fuel `ahi` bounds the growth of `k`. -/
def extendUpper (a b : List Line) (ahi bhi : Nat) :
    Nat → Nat × Nat × Nat → Nat × Nat × Nat
  | 0, st => st
  | fuel + 1, (besti, bestj, k) =>
      if besti + k < ahi && bestj + k < bhi &&
          (a.getD (besti + k) [] == b.getD (bestj + k) []) then
        extendUpper a b ahi bhi fuel (besti, bestj, k + 1)
      else (besti, bestj, k)

/-- `SequenceMatcher.find_longest_match` on the slice `a[alo:ahi]` / `b[blo:bhi]`. -/
def findLongestMatch (a b : List Line) (b2j : List (Line × List Nat))
    (alo ahi blo bhi : Nat) : Nat × Nat × Nat :=
  let dp := (List.range' alo (ahi - alo)).foldl
    (fun (st : List (Nat × Nat) × (Nat × Nat × Nat)) i =>
      innerLoop blo bhi i st.1 (aGetD b2j (a.getD i []) []) [] st.2)
    ([], (alo, blo, 0))
  extendUpper a b ahi bhi ahi (extendLower a b alo blo (dp.2).1 dp.2)

/-- The stack-driven divide-and-conquer loop of `get_matching_blocks`
(exploration order does not matter: the result is sorted afterwards). -/
def matchingBlocksAux (a b : List Line) (b2j : List (Line × List Nat)) :
    Nat → List (Nat × Nat × Nat × Nat) → List (Nat × Nat × Nat) → List (Nat × Nat × Nat)
  | 0, _, acc => acc
  | _ + 1, [], acc => acc
  | fuel + 1, (alo, ahi, blo, bhi) :: queue, acc =>
      let m := findLongestMatch a b b2j alo ahi blo bhi
      let i := m.1
      let j := m.2.1
      let k := m.2.2
      if k > 0 then
        let queue1 := (if alo < i ∧ blo < j then [(alo, i, blo, j)] else []) ++
          (if i + k < ahi ∧ j + k < bhi then [(i + k, ahi, j + k, bhi)] else []) ++ queue
        matchingBlocksAux a b b2j fuel queue1 (acc ++ [(i, j, k)])
      else matchingBlocksAux a b b2j fuel queue acc

def blockLe (x y : Nat × Nat × Nat) : Bool :=
  x.1 < y.1 || (x.1 = y.1 && (x.2.1 < y.2.1 || (x.2.1 = y.2.1 && x.2.2 ≤ y.2.2)))

def insertSorted (x : Nat × Nat × Nat) : List (Nat × Nat × Nat) → List (Nat × Nat × Nat)
  | [] => [x]
  | y :: rest => if blockLe x y then x :: y :: rest else y :: insertSorted x rest

def sortBlocks : List (Nat × Nat × Nat) → List (Nat × Nat × Nat)
  | [] => []
  | x :: rest => insertSorted x (sortBlocks rest)

/-- The adjacent-merge pass of `get_matching_blocks`; the running block starts
at `(0, 0, 0)`. -/
def nonAdjacent : List (Nat × Nat × Nat) → Nat × Nat × Nat → List (Nat × Nat × Nat)
  | [], (i1, j1, k1) => if k1 ≠ 0 then [(i1, j1, k1)] else []
  | (i2, j2, k2) :: rest, (i1, j1, k1) =>
      if i1 + k1 = i2 ∧ j1 + k1 = j2 then nonAdjacent rest (i1, j1, k1 + k2)
      else (if k1 ≠ 0 then [(i1, j1, k1)] else []) ++ nonAdjacent rest (i2, j2, k2)

/-- `SequenceMatcher.get_matching_blocks`, terminated by the sentinel
`(len a, len b, 0)`. -/
def getMatchingBlocks (a b : List Line) : List (Nat × Nat × Nat) :=
  let b2j := chainB b
  let blocks := matchingBlocksAux a b b2j (a.length + b.length + 2)
    [(0, a.length, 0, b.length)] []
  nonAdjacent (sortBlocks blocks) (0, 0, 0) ++ [(a.length, b.length, 0)]

inductive OpTag : Type
  | replace
  | delete
  | insert
  | equal
  deriving DecidableEq, Repr

structure Opcode where
  tag : OpTag
  i1 : Nat
  i2 : Nat
  j1 : Nat
  j2 : Nat
  deriving DecidableEq, Repr

def opcodesLoop : List (Nat × Nat × Nat) → Nat → Nat → List Opcode
  | [], _, _ => []
  | (ai, bj, size) :: rest, i, j =>
      let pre : List Opcode :=
        if i < ai ∧ j < bj then [⟨.replace, i, ai, j, bj⟩]
        else if i < ai then [⟨.delete, i, ai, j, bj⟩]
        else if j < bj then [⟨.insert, i, ai, j, bj⟩]
        else []
      let eqs : List Opcode :=
        if size ≠ 0 then [⟨.equal, ai, ai + size, bj, bj + size⟩] else []
      pre ++ eqs ++ opcodesLoop rest (ai + size) (bj + size)

/-- `SequenceMatcher.get_opcodes`. -/
def getOpcodes (a b : List Line) : List Opcode :=
  opcodesLoop (getMatchingBlocks a b) 0 0

def adjustFirst (n : Nat) : List Opcode → List Opcode
  | [] => []
  | c :: rest =>
      if c.tag = .equal then
        { c with i1 := max c.i1 (c.i2 - n), j1 := max c.j1 (c.j2 - n) } :: rest
      else c :: rest

def adjustLast (n : Nat) (l : List Opcode) : List Opcode :=
  match l.getLast? with
  | none => l
  | some c =>
      if c.tag = .equal then
        l.dropLast ++ [{ c with i2 := min c.i2 (c.i1 + n), j2 := min c.j2 (c.j1 + n) }]
      else l

def groupLoop (n : Nat) : List Opcode → List Opcode → List (List Opcode) → List (List Opcode)
  | [], group, groups =>
      match group with
      | [] => groups
      | c :: rest =>
          if rest = [] ∧ c.tag = .equal then groups else groups ++ [group]
  | c :: rest, group, groups =>
      if c.tag = .equal ∧ c.i2 - c.i1 > n + n then
        groupLoop n rest
          [{ c with i1 := max c.i1 (c.i2 - n), j1 := max c.j1 (c.j2 - n) }]
          (groups ++ [group ++ [{ c with i2 := min c.i2 (c.i1 + n), j2 := min c.j2 (c.j1 + n) }]])
      else groupLoop n rest (group ++ [c]) groups

/-- `SequenceMatcher.get_grouped_opcodes` with context `n`. -/
def groupedOpcodes (a b : List Line) (n : Nat) : List (List Opcode) :=
  let codes0 := getOpcodes a b
  let codes1 := if codes0 = [] then [⟨.equal, 0, 1, 0, 1⟩] else codes0
  groupLoop n (adjustLast n (adjustFirst n codes1)) [] []

/-- `difflib._format_range_unified`. -/
def formatRangeUnified (start stop : Nat) : String :=
  let beginning := start + 1
  let length := stop - start
  if length = 1 then toString beginning
  else
    let beginning1 := if length = 0 then beginning - 1 else beginning
    toString beginning1 ++ "," ++ toString length

def sliceList {α : Type} (l : List α) (i1 i2 : Nat) : List α :=
  (l.drop i1).take (i2 - i1)

def opcodeLines (a b : List Line) (c : Opcode) : List String :=
  match c.tag with
  | .equal => (sliceList a c.i1 c.i2).map fun l => strOfChars (' ' :: l)
  | .delete => (sliceList a c.i1 c.i2).map fun l => strOfChars ('-' :: l)
  | .insert => (sliceList b c.j1 c.j2).map fun l => strOfChars ('+' :: l)
  | .replace =>
      ((sliceList a c.i1 c.i2).map fun l => strOfChars ('-' :: l)) ++
        ((sliceList b c.j1 c.j2).map fun l => strOfChars ('+' :: l))

def hunkLines (a b : List Line) (g : List Opcode) : List String :=
  match g with
  | [] => []
  | first :: _ =>
      let last := g.getLastD first
      ("@@ -" ++ formatRangeUnified first.i1 last.i2 ++ " +" ++
        formatRangeUnified first.j1 last.j2 ++ " @@" ++ "\n") ::
        g.flatMap (opcodeLines a b)

/-- `difflib.unified_diff` with `n = 3`, `lineterm = "\n"`, empty file dates:
the list of yielded strings (headers once, before the first group). -/
def unifiedDiff (a b : List Line) (fromfile tofile : String) : List String :=
  match groupedOpcodes a b 3 with
  | [] => []
  | groups =>
      ("--- " ++ fromfile ++ "\n") :: ("+++ " ++ tofile ++ "\n") ::
        groups.flatMap (hunkLines a b)

/-- `"".join`: concatenation of the pieces. -/
def joinAll (l : List String) : String :=
  strOfChars (l.map String.data).flatten

/-- `diff_utils.generate_diff`. -/
def generate_diff (old_content new_content filename : String) : String :=
  if old_content = new_content then "No changes in " ++ filename
  else
    joinAll (unifiedDiff (splitlinesKeep old_content.data)
      (splitlinesKeep new_content.data) (filename ++ " (old)") (filename ++ " (new)"))

/-- The scan loop of `diff_utils.apply_diff`.  `none` models the `IndexError`
raised by `lines[len(result)]` when `result` is empty and `lines` is too
(Python's `or` short-circuits, so a non-empty `result` never evaluates the
subscript), which the surrounding `except` turns into `None`. -/
def applyLoop (lines : List Line) : List Line → List Line → Option (List Line)
  | [], result => some result
  | dl :: rest, result =>
      if ['-', '-', '-'].isPrefixOf dl || ['+', '+', '+'].isPrefixOf dl then
        applyLoop lines rest result
      else if ['@', '@'].isPrefixOf dl then applyLoop lines rest result
      else if [' '].isPrefixOf dl then
        if result ≠ [] then applyLoop lines rest (result ++ [dl.drop 1])
        else
          match lines.head? with
          | none => none
          | some l0 =>
              if dl.drop 1 ≠ l0 then applyLoop lines rest (result ++ [dl.drop 1])
              else applyLoop lines rest (result ++ [l0])
      else if ['-'].isPrefixOf dl then applyLoop lines rest result
      else if ['+'].isPrefixOf dl then applyLoop lines rest (result ++ [dl.drop 1])
      else applyLoop lines rest result

/-- `diff_utils.apply_diff`: split, scan, then `"".join(result) if lines else
"\n".join(result)`. -/
def apply_diff (original diff_text : String) : Option String :=
  let lines := splitlinesKeep original.data
  match applyLoop lines (splitlinesStrip diff_text.data) [] with
  | none => none
  | some result =>
      if lines ≠ [] then some (strOfChars result.flatten)
      else some (strOfChars (List.intercalate ['\n'] result))

/-! ### Paths and the filesystem model — for `src/file_manager/handler.py`

`pathlib.PurePosixPath` semantics: `/` concatenates (an absolute right operand
replaces the left), parsing drops empty and `"."` segments but keeps `".."`,
and `.parent` is lexical.  Resolution against the filesystem happens at
`open`/`mkdir` time; it is modelled by `resolveP`, which folds `".."` away
against a fixed current working directory (symlinks are assumed absent, and
`".."` is resolved lexically — exact for the states in this development,
where every intermediate directory exists).  A filesystem is a pair of
insertion-ordered maps: resolved path ↦ file content, and the set (listing
order preserved, as `os.scandir` order is platform-defined) of directories. -/

/-- Python `str.split(sep)` for a one-character separator: at least one part,
a part between every two separators. -/
def splitOnChar (sep : Char) : List Char → List (List Char)
  | [] => [[]]
  | c :: rest =>
      if c = sep then [] :: splitOnChar sep rest
      else
        match splitOnChar sep rest with
        | [] => [[c]]
        | p :: ps => (c :: p) :: ps

def joinWithChar (sep : Char) (parts : List (List Char)) : List Char :=
  List.intercalate [sep] parts

/-- `str.startswith(pre)`, phrased on the character lists. -/
def strStartsWith (s pre : String) : Bool := pre.data.isPrefixOf s.data

structure PPath where
  absolute : Bool
  segs : List String
  deriving DecidableEq, Repr

def splitSegs (s : String) : List String :=
  ((splitOnChar '/' s.data).map strOfChars).filter fun x => x ≠ "" && x ≠ "."

def parsePath (s : String) : PPath :=
  { absolute := strStartsWith s "/", segs := splitSegs s }

/-- `PurePath.__truediv__`. -/
def joinPath (p : PPath) (s : String) : PPath :=
  if strStartsWith s "/" then parsePath s
  else { p with segs := p.segs ++ splitSegs s }

/-- `PurePath.parent` (lexical; the parent of the root is the root). -/
def lexParent (p : PPath) : PPath :=
  { p with segs := p.segs.dropLast }

/-- `str(path)` for the diff headers. -/
def ppathStr (p : PPath) : String :=
  if p.segs = [] then (if p.absolute then "/" else ".")
  else (if p.absolute then "/" else "") ++ String.intercalate "/" p.segs

/-- The process working directory (any fixed absolute directory). -/
def cwd : List String := ["home", "agent"]

/-- OS-level resolution of a path to an absolute segment list; `".."` at the
root stays at the root. -/
def resolveP (p : PPath) : List String :=
  p.segs.foldl (fun acc s => if s = ".." then acc.dropLast else acc ++ [s])
    (if p.absolute then [] else cwd)

structure FS where
  files : List (List String × String)
  dirs : List (List String)
  deriving DecidableEq, Repr

def FS.isFile (fs : FS) (p : List String) : Bool := (aGet fs.files p).isSome

def FS.isDir (fs : FS) (p : List String) : Bool := fs.dirs.contains p

/-- `Path.mkdir(parents=True, exist_ok=True)`: an existing directory is fine,
an existing non-directory raises, otherwise the parent is ensured first.
Fuel `|p| + 1` suffices since each step shortens the path. -/
def mkdirPAux : Nat → FS → List String → Option FS
  | 0, fs, p => if fs.isDir p then some fs else none
  | fuel + 1, fs, p =>
      if fs.isDir p then some fs
      else if fs.isFile p then none
      else
        match mkdirPAux fuel fs p.dropLast with
        | none => none
        | some fs2 => some { fs2 with dirs := fs2.dirs ++ [p] }

def FS.mkdirParents (fs : FS) (p : List String) : Option FS :=
  mkdirPAux (p.length + 1) fs p

/-- `open(path, "w")` + `write`: fails on a directory target or a missing /
non-directory parent. -/
def FS.writeFile (fs : FS) (p : List String) (content : String) : Option FS :=
  if fs.isDir p then none
  else if fs.isDir p.dropLast then some { fs with files := aInsert fs.files p content }
  else none

/-- `backup_dir.glob(f"*.{task_id}.bak")`: the immediate children (files and
directories, listing order) of `dir` whose name ends with the literal
suffix — exactly `fnmatch` for a `*`-prefixed pattern whose remainder is free
of glob metacharacters. -/
def globMatches (fs : FS) (dir : List String) (suffix : List Char) : List (List String) :=
  (fs.files.map Prod.fst ++ fs.dirs).filterMap fun p =>
    if p.dropLast = dir then
      match p.getLast? with
      | some name => if suffix.isSuffixOf name.data then some p else none
      | none => none
    else none

/-- The count `len([b for b in backup_dir.glob(f"{filename}.*.bak")])` kept in
history records (never read by any claim): children whose name starts with
`filename ++ "."` and ends with `".bak"`. -/
def globCountPrefixSuffix (fs : FS) (dir : List String) (pre suf : List Char) : Nat :=
  ((fs.files.map Prod.fst ++ fs.dirs).filterMap fun p =>
    if p.dropLast = dir then p.getLast? else none).countP
    fun name => pre.isPrefixOf name.data && suf.isSuffixOf name.data &&
      decide (pre.length + suf.length ≤ name.data.length)

/-! ### The file mutation engine — `src/file_manager/handler.py`

`datetime.now().strftime("%Y%m%d_%H%M%S")` values are threaded in as one
string per batch entry (the format never produces `'.'` or `'/'`);
`datetime.now().isoformat()` in history records reuses the same tick.
`_load_history` is captured by the arbitrary initial `history` value, and
`_setup_directories` by the hypotheses that the output and backup
directories exist.  `json.dump` is `encodeHistory`, a stand-in serializer:
no claim depends on the serialized text, only on which path is written. -/

structure HistEntry where
  task_id : String
  timestamp : String
  size : Nat
  backup_count : Nat
  deriving DecidableEq, Repr

structure FileManager where
  output_dir : PPath
  dry_run : Bool
  history : List (String × List HistEntry)
  deriving DecidableEq, Repr

def FileManager.backupDir (fm : FileManager) : PPath :=
  joinPath fm.output_dir "backups"

def FileManager.historyFile (fm : FileManager) : PPath :=
  joinPath fm.output_dir "file_history.json"

def encodeHistory (h : List (String × List HistEntry)) : String :=
  strOfChars (h.foldl (fun acc e =>
    acc ++ e.1.data ++ [':'] ++
      (e.2.foldl (fun a r => a ++ r.task_id.data ++ [','] ++ r.timestamp.data ++ [';']) []) ++
      ['\n']) [])

/-- `FileManager._save_history`; write failures are swallowed (logged only). -/
def save_history (fm : FileManager) (fs : FS) : FS :=
  if fm.dry_run then fs
  else
    match fs.writeFile (resolveP fm.historyFile) (encodeHistory fm.history) with
    | none => fs
    | some fs1 => fs1

/-- `FileManager._create_backup`: swallows its own exceptions and returns
`""` in that case (the caller then treats the backup as absent but
continues!). -/
def create_backup (fm : FileManager) (fs : FS) (filename content task_id ts : String) :
    String × FS :=
  let backup_filename := filename ++ "." ++ ts ++ "." ++ task_id ++ ".bak"
  let backup_path := joinPath fm.backupDir backup_filename
  match fs.mkdirParents (resolveP (lexParent backup_path)) with
  | none => ("", fs)
  | some fs1 =>
      match fs1.writeFile (resolveP backup_path) content with
      | none => ("", fs1)
      | some fs2 => (ppathStr backup_path, fs2)

/-- `FileManager._update_file_history` (append, cap at the last 100). -/
def update_file_history (fm : FileManager) (fs : FS) (filename task_id : String)
    (size : Nat) (ts : String) : List (String × List HistEntry) :=
  let entries := (dictGet fm.history filename).getD []
  let bc := globCountPrefixSuffix fs (resolveP fm.backupDir)
    (filename ++ ".").data ".bak".data
  let entries1 := entries ++ [⟨task_id, ts, size, bc⟩]
  let entries2 :=
    if entries1.length > 100 then entries1.drop (entries1.length - 100) else entries1
  dictInsert fm.history filename entries2

structure WriteRes where
  success : Bool
  diff : String
  backup : Option String
  error : String
  deriving DecidableEq, Repr

/-- `FileManager._write_file_safe`.  The parent `mkdir` (step 1) runs even in
dry-run mode; reading a directory raises and is caught; the backup is taken
before the write; exceptions after a successful backup leave it on disk.
Error strings stand in for Python's `str(e)`. -/
def write_file_safe (fm : FileManager) (fs : FS) (filename content task_id ts : String) :
    WriteRes × FS × FileManager :=
  let filepath := joinPath fm.output_dir filename
  match fs.mkdirParents (resolveP (lexParent filepath)) with
  | none => ({ success := false, diff := "", backup := none, error := "mkdir failed" },
      fs, fm)
  | some fs1 =>
      let rp := resolveP filepath
      if fs1.isDir rp then
        ({ success := false, diff := "", backup := none, error := "is a directory" },
          fs1, fm)
      else
        let old := aGet fs1.files rp
        let diff := match old with
          | some o => generate_diff o content (ppathStr filepath)
          | none => ""
        let bk : Option String × FS :=
          match old with
          | some o =>
              if fm.dry_run then (none, fs1)
              else
                let r := create_backup fm fs1 filename o task_id ts
                (some r.1, r.2)
          | none => (none, fs1)
        if fm.dry_run then
          ({ success := true, diff := diff, backup := bk.1, error := "" }, bk.2, fm)
        else
          match bk.2.writeFile rp content with
          | none =>
              ({ success := false, diff := "", backup := bk.1, error := "write failed" },
                bk.2, fm)
          | some fs3 =>
              ({ success := true, diff := diff, backup := bk.1, error := "" }, fs3,
                { fm with history :=
                    update_file_history fm fs3 filename task_id content.length ts })

structure BatchResult where
  success : List String
  failed : List (String × String)
  backups : List String
  diffs : List (String × String)
  deriving DecidableEq, Repr

/-- One aggregation step of `write_files` (note `if result["backup"]`: both
`None` and the empty string are falsy, so swallowed backup failures are not
reported). -/
def recordResult (acc : BatchResult) (filename : String) (res : WriteRes) : BatchResult :=
  if res.success then
    { acc with
      success := acc.success ++ [filename]
      diffs := dictInsert acc.diffs filename res.diff
      backups := match res.backup with
        | some b => if b ≠ "" then acc.backups ++ [b] else acc.backups
        | none => acc.backups }
  else { acc with failed := acc.failed ++ [(filename, res.error)] }

def write_files_aux (task_id : String) :
    FileManager → FS → List ((String × String) × String) → BatchResult →
    BatchResult × FS × FileManager
  | fm, fs, [], acc => (acc, fs, fm)
  | fm, fs, ((filename, code), ts) :: rest, acc =>
      let r := write_file_safe fm fs filename code task_id ts
      write_files_aux task_id r.2.2 r.2.1 rest (recordResult acc filename r.1)

/-- `FileManager.write_files`: per-file processing, then `_save_history`. -/
def write_files (fm : FileManager) (fs : FS) (files : List (String × String))
    (task_id : String) (tss : List String) : BatchResult × FS × FileManager :=
  let r := write_files_aux task_id fm fs (files.zip tss)
    { success := [], failed := [], backups := [], diffs := [] }
  (r.1, save_history r.2.2 r.2.1, r.2.2)

/-- `'.'.join(parts[:-3])` applied to `backup.name`. -/
def parseOriginal (name : String) : String :=
  let parts := splitOnChar '.' name.data
  strOfChars (joinWithChar '.' (parts.take (parts.length - 3)))

/-- `FileManager._restore_backup`. -/
def restore_backup (fm : FileManager) (fs : FS) (backup_path : List String)
    (original_filename : String) : Bool × FS :=
  if fm.dry_run then (true, fs)
  else
    match aGet fs.files backup_path with
    | none => (false, fs)
    | some content =>
        let target := joinPath fm.output_dir original_filename
        match fs.mkdirParents (resolveP (lexParent target)) with
        | none => (false, fs)
        | some fs1 =>
            match fs1.writeFile (resolveP target) content with
            | none => (false, fs1)
            | some fs2 => (true, fs2)

structure RollbackResult where
  restored : List String
  failed : List String
  deriving DecidableEq, Repr

def rollback_step (fm : FileManager) (acc : RollbackResult × FS)
    (backup : List String) : RollbackResult × FS :=
  let name := backup.getLastD ""
  let original := parseOriginal name
  let r := restore_backup fm acc.2 backup original
  if r.1 then ({ acc.1 with restored := acc.1.restored ++ [original] }, r.2)
  else ({ acc.1 with failed := acc.1.failed ++ [original] }, r.2)

/-- `FileManager.rollback_to_task`: the backup list is globbed once up
front, then each entry is restored best-effort. -/
def rollback_to_task (fm : FileManager) (fs : FS) (task_id : String) :
    RollbackResult × FS :=
  let backups := globMatches fs (resolveP fm.backupDir)
    ("." ++ task_id ++ ".bak").data
  backups.foldl (rollback_step fm) ({ restored := [], failed := [] }, fs)

/-! ### `SafetyChecker.validate_filename` — `src/utils/safety.py`

Present in the repository and exported from `utils`, but never invoked by
`FileManager` (or anything else). -/

def validate_filename (filename : String) : List String :=
  let issues0 : List String := []
  let issues1 :=
    if decide ("..".data <:+: filename.data) || strStartsWith filename "/" then
      issues0 ++ ["Potential directory traversal in filename"]
    else issues0
  let unsafe_chars : List Char := ['<', '>', ':', '\"', '|', '?', '*']
  let issues2 := unsafe_chars.foldl
    (fun acc ch =>
      if filename.data.contains ch then
        acc ++ ["Unsafe character \x27" ++ strOfChars [ch] ++ "\x27 in filename"]
      else acc)
    issues1
  let reserved := ["CON", "PRN", "AUX", "NUL", "COM1", "COM2", "COM3", "COM4",
    "LPT1", "LPT2", "LPT3", "LPT4"]
  if reserved.contains (strOfChars (filename.data.map Char.toUpper)) then
    issues2 ++ ["Reserved filename: " ++ filename]
  else issues2

/-- A path name with no directory separator that is a genuine single segment
(`pathlib` drops `""` and `"."`; `".."` climbs). -/
def isFlatName (s : String) : Bool :=
  !s.data.contains '/' && s ≠ "" && s ≠ "." && s ≠ ".."

/-- Work-unit ids and `%Y%m%d_%H%M%S` timestamps: non-empty, free of `'.'`,
`'/'` and glob metacharacters. -/
def goodToken (s : String) : Bool :=
  s ≠ "" && s.data.all fun ch => ch.isAlphanum || ch = '_' || ch = '-'

/-! ### Concrete file-manager scenarios -/

/-- A filesystem holding just the working directory chain, the managed root
`outputs` and its `backups` subdirectory. -/
def fs0 : FS :=
  { files := [],
    dirs := [[], ["home"], ["home", "agent"], ["home", "agent", "outputs"],
      ["home", "agent", "outputs", "backups"]] }

def fmLive : FileManager :=
  { output_dir := parsePath "outputs", dry_run := false, history := [] }

def fmDry : FileManager :=
  { output_dir := parsePath "outputs", dry_run := true, history := [] }

/-- `fs0` plus a pre-existing source file in a subdirectory of the root. -/
def fsNested : FS :=
  { files := [(["home", "agent", "outputs", "src", "main.py"], "old")],
    dirs := fs0.dirs ++ [["home", "agent", "outputs", "src"]] }

/-- The escape batch: one entry whose path climbs out of the managed root. -/
def escapeOut : BatchResult × FS × FileManager :=
  write_files fmLive fs0 [("../secret", "x")] "T1" ["20250101_000000"]

/-- Batch writing `src/main.py` (a nested path), then rolling `T1` back. -/
def nestedOut : BatchResult × FS × FileManager :=
  write_files fmLive fsNested [("src/main.py", "new")] "T1" ["20250101_000000"]

def nestedRollback : RollbackResult × FS :=
  rollback_to_task fmLive nestedOut.2.1 "T1"

/-- Dry-run batch targeting a not-yet-existing subdirectory. -/
def dryOut : BatchResult × FS × FileManager :=
  write_files fmDry fs0 [("d/a.py", "x")] "T1" ["20250101_000000"]

/-- `fs0` plus a pre-existing flat file directly under the managed root. -/
def fsFlat : FS :=
  { files := [(["home", "agent", "outputs", "a.py"], "old")], dirs := fs0.dirs }

/-! ## Theorems -/

@[simp] theorem dictGet_insert_self {α : Type} (l : List (String × α)) (k : String) (v : α) :
    dictGet (dictInsert l k v) k = some v := by
  induction l with
  | nil => simp [dictInsert, dictGet]
  | cons p rest ih =>
      obtain ⟨k', v'⟩ := p
      by_cases h : k' = k <;> simp [dictInsert, dictGet, h, ih]

theorem dictGet_insert_ne {α : Type} (l : List (String × α)) (k k₀ : String) (v : α)
    (h : k₀ ≠ k) : dictGet (dictInsert l k v) k₀ = dictGet l k₀ := by
  induction l with
  | nil =>
      have hne : ¬ k = k₀ := fun hh => h hh.symm
      simp [dictInsert, dictGet, hne]
  | cons p rest ih =>
      obtain ⟨k', v'⟩ := p
      by_cases hk : k' = k
      · subst hk
        have hne : ¬ k' = k₀ := fun hh => h hh.symm
        simp [dictInsert, dictGet, hne]
      · simp only [dictInsert, if_neg hk, dictGet]
        by_cases hk0 : k' = k₀
        · simp [hk0]
        · simp [hk0, ih]

theorem dependencies_met_iff (tm : TaskManager) (t : Task) :
    dependencies_met tm t = true ↔
      ∀ d ∈ t.dependencies, ∀ dt : Task, dictGet tm.tasks d = some dt →
        dt.status = TaskStatus.completed := by
  unfold dependencies_met
  rw [List.all_eq_true]
  constructor
  · intro h d hd dt hdt
    have := h d hd
    rw [hdt] at this
    simpa using this
  · intro h d hd
    cases hdt : dictGet tm.tasks d with
    | none => simp
    | some dt => simpa using h d hd dt hdt

/-- C1 (amended): for every task-manager state — no acyclicity assumption is
even needed — `get_ready_tasks` returns exactly the tasks of the table whose
status is PENDING and whose every dependency id that is *present in the table*
names a COMPLETED task; dependency ids unknown to the manager are skipped by
the readiness test. -/
theorem get_ready_tasks_characterization (tm : TaskManager) (t : Task) :
    t ∈ get_ready_tasks tm ↔
      t ∈ tm.tasks.map Prod.snd ∧ t.status = TaskStatus.pending ∧
        ∀ d ∈ t.dependencies, ∀ dt : Task, dictGet tm.tasks d = some dt →
          dt.status = TaskStatus.completed := by
  unfold get_ready_tasks
  rw [List.mem_filter, Bool.and_eq_true, beq_iff_eq, dependencies_met_iff]

/-- Witness for `get_ready_tasks_characterization` at the concrete manager
holding only task `B` with its unknown dependency `A`. -/
theorem get_ready_tasks_characterization_witness :
    taskB1 ∈ get_ready_tasks tmUnknownDep ↔
      taskB1 ∈ tmUnknownDep.tasks.map Prod.snd ∧ taskB1.status = TaskStatus.pending ∧
        ∀ d ∈ taskB1.dependencies, ∀ dt : Task, dictGet tmUnknownDep.tasks d = some dt →
          dt.status = TaskStatus.completed :=
  get_ready_tasks_characterization tmUnknownDep taskB1

/-- C1 (counterexample): the manager holding only task `B` (PENDING, with the
single dependency id `A` that names no known task) satisfies the DAG
hypothesis, yet `get_ready_tasks` returns `B` — a task with an unknown (hence
certainly not COMPLETED) dependency. -/
theorem ready_with_unknown_dependency :
    formsDAG tmUnknownDep = true ∧
    get_ready_tasks tmUnknownDep = [taskB1] ∧
    "A" ∈ taskB1.dependencies ∧
    dictGet tmUnknownDep.tasks "A" = none := by
  decide

/-- C4: `update_task_status` called with an id absent from the task table, or
with a (current status, target status) pair rejected by the state machine,
returns `false` and leaves the manager — in particular the task's status and
every one of its timestamps — unchanged. -/
theorem update_task_status_rejected (tm : TaskManager) (task_id : String)
    (status : TaskStatus) (now : Nat)
    (h : ∀ t : Task, dictGet tm.tasks task_id = some t →
      can_transition t.status status = false) :
    update_task_status tm task_id status now = (false, tm) := by
  unfold update_task_status
  cases hg : dictGet tm.tasks task_id with
  | none => rfl
  | some t => simp [h t hg]

/-- Witness for `update_task_status_rejected`: the illegal pair
(PENDING, COMPLETED) on task `A` of the three-task scenario manager. -/
theorem update_task_status_rejected_witness :
    update_task_status tmABC "A" TaskStatus.completed 5 = (false, tmABC) :=
  update_task_status_rejected tmABC "A" TaskStatus.completed 5 (by decide)

/-- C6 (counterexample): with tasks `A` (no deps), `B` and `C` (deps = [A]),
all PENDING, the single call `update_status(A, COMPLETED)` is rejected by the
transition table (PENDING → COMPLETED is illegal), so afterwards
`get_ready_tasks` still returns exactly `{A}`, not `{B, C}`. -/
theorem single_complete_call_rejected :
    get_ready_tasks tmABC = [taskA] ∧
    (update_task_status tmABC "A" TaskStatus.completed 1).1 = false ∧
    get_ready_tasks (update_task_status tmABC "A" TaskStatus.completed 1).2 = [taskA] ∧
    taskB ∉ get_ready_tasks (update_task_status tmABC "A" TaskStatus.completed 1).2 := by
  decide

/-- C6 (amended): in the same scenario, initially `get_ready_tasks` returns
exactly `{A}`; after the two legal calls `update_status(A, IN_PROGRESS)` and
then `update_status(A, COMPLETED)`, it returns exactly the tasks with ids
`{B, C}`. -/
theorem ready_after_completing_A :
    get_ready_tasks tmABC = [taskA] ∧
    (get_ready_tasks tmABCDone).map Task.id = ["B", "C"] := by
  decide

theorem addDepEdge_tasks (tid : String) (acc : TaskManager) (d : String) :
    (addDepEdge tid acc d).tasks = acc.tasks := by
  unfold addDepEdge
  split <;> rfl

theorem foldl_addDepEdge_tasks (tid : String) (l : List String) (acc : TaskManager) :
    (l.foldl (addDepEdge tid) acc).tasks = acc.tasks := by
  induction l generalizing acc with
  | nil => rfl
  | cons d rest ih => rw [List.foldl_cons, ih, addDepEdge_tasks]

theorem add_task_tasks (tm : TaskManager) (task : Task) :
    (add_task tm task).tasks = dictInsert tm.tasks task.id task := by
  unfold add_task
  rw [foldl_addDepEdge_tasks]
  rfl

theorem mem_graphAddEdge_edges (tm : TaskManager) (a b : String) (e : String × String) :
    e ∈ (graphAddEdge tm a b).edges ↔ e ∈ tm.edges ∨ e = (a, b) := by
  show e ∈ (if (a, b) ∈ tm.edges then tm.edges else tm.edges ++ [(a, b)]) ↔ _
  split
  · rename_i hin
    constructor
    · exact Or.inl
    · rintro (h | rfl)
      · exact h
      · exact hin
  · simp [List.mem_append]

theorem foldl_addDepEdge_edges_mem (tid d : String) (l : List String) (acc : TaskManager)
    (hd : dictContains acc.tasks d = false) :
    ((d, tid) ∈ (l.foldl (addDepEdge tid) acc).edges ↔ (d, tid) ∈ acc.edges) := by
  induction l generalizing acc with
  | nil => exact Iff.rfl
  | cons x rest ih =>
      rw [List.foldl_cons]
      have hacc : dictContains (addDepEdge tid acc x).tasks d = false := by
        rw [addDepEdge_tasks]; exact hd
      rw [ih _ hacc]
      unfold addDepEdge
      split
      · rename_i hx
        rw [mem_graphAddEdge_edges]
        constructor
        · rintro (h | h)
          · exact h
          · have hdx : d = x := congrArg Prod.fst h
            rw [← hdx] at hx
            rw [hd] at hx
            cases hx
        · exact Or.inl
      · exact Iff.rfl

/-- C7 (amended): `add_task` never rejects: it registers the task under its id
(overwriting any task already stored there), and a dependency entry naming an
id unknown to the manager (and different from the task's own id) is silently
ignored — no edge for it is created and no error of any kind is signalled (the
embedding is a total function because the source has no failure path). -/
theorem add_task_never_rejects (tm : TaskManager) (task : Task) :
    dictGet (add_task tm task).tasks task.id = some task ∧
    ∀ d, d ∈ task.dependencies → dictGet tm.tasks d = none → d ≠ task.id →
      ((d, task.id) ∈ (add_task tm task).edges ↔ (d, task.id) ∈ tm.edges) := by
  constructor
  · rw [add_task_tasks, dictGet_insert_self]
  · intro d _ hnone hne
    unfold add_task
    have hdc : dictContains
        (graphAddNode { tm with tasks := dictInsert tm.tasks task.id task } task.id).tasks
        d = false := by
      show dictContains (dictInsert tm.tasks task.id task) d = false
      unfold dictContains
      rw [dictGet_insert_ne _ _ _ _ hne, hnone]
      rfl
    rw [foldl_addDepEdge_edges_mem task.id d task.dependencies _ hdc]
    exact Iff.rfl

/-- Witness for `add_task_never_rejects`: adding task `D` with its unknown
dependency id `Z` to the empty manager. -/
theorem add_task_never_rejects_witness :
    ("Z", "D") ∈ (add_task emptyTM taskD).edges ↔ ("Z", "D") ∈ emptyTM.edges :=
  (add_task_never_rejects emptyTM taskD).2 "Z" (by decide) (by decide) (by decide)

/-- C7 (counterexample): `add_task` accepts — with no error report of any
kind — both a task whose dependency id `Z` is unknown (the task is registered,
the dependency is silently dropped: no edge appears) and a second task reusing
the already-present id `D` (the stored task is silently overwritten). -/
theorem add_task_accepts_unknown_dep_and_duplicate :
    (add_task emptyTM taskD).tasks = [("D", taskD)] ∧
    (add_task emptyTM taskD).edges = [] ∧
    (add_task (add_task emptyTM taskD) taskD2).tasks = [("D", taskD2)] := by
  decide

/-- C8 (counterexample): along the legal sequence PENDING → IN_PROGRESS
(tick 1) → FAILED (tick 2) → IN_PROGRESS (tick 3), the `started` timestamp is
first set to 1 and then *modified* to 3 by the later transition re-entering
IN_PROGRESS — it is not set exactly once. -/
theorem started_at_reassigned :
    (update_task_status tmS0 "A" TaskStatus.in_progress 1).1 = true ∧
    (dictGet tmS1.tasks "A").map Task.started_at = some (some 1) ∧
    (update_task_status tmS1 "A" TaskStatus.failed 2).1 = true ∧
    (update_task_status tmS2 "A" TaskStatus.in_progress 3).1 = true ∧
    (dictGet tmS3.tasks "A").map Task.started_at = some (some 3) := by
  decide

/-- C8 (amended): in every successful `update_task_status`, the updated task's
`started_at` is reassigned exactly when the transition enters IN_PROGRESS and
`completed_at` exactly when it enters COMPLETED (each left unchanged
otherwise); and since COMPLETED is terminal, a task whose status is COMPLETED
admits no further successful update, so `completed_at`, once set, is never
modified — while `started_at` *is* re-set whenever IN_PROGRESS is re-entered
after FAILED. -/
theorem update_status_timestamp_discipline (tm : TaskManager) (task_id : String)
    (st : TaskStatus) (now : Nat) (t t' : Task)
    (ht : dictGet tm.tasks task_id = some t)
    (ht' : dictGet (update_task_status tm task_id st now).2.tasks task_id = some t') :
    ((update_task_status tm task_id st now).1 = true →
        t'.started_at = (if st = TaskStatus.in_progress then some now else t.started_at) ∧
        t'.completed_at = (if st = TaskStatus.completed then some now else t.completed_at)) ∧
    (t.status = TaskStatus.completed → (update_task_status tm task_id st now).1 = false) := by
  by_cases hc : can_transition t.status st = true
  · have hu : update_task_status tm task_id st now =
        (true, { tm with tasks := dictInsert tm.tasks task_id (applyStatusUpdate t st now) }) := by
      unfold update_task_status
      rw [ht]
      simp [hc]
    rw [hu] at ht'
    have ht2 : dictGet (dictInsert tm.tasks task_id (applyStatusUpdate t st now))
        task_id = some t' := ht'
    rw [dictGet_insert_self] at ht2
    constructor
    · intro _
      cases ht2
      exact ⟨rfl, rfl⟩
    · intro hcomp
      rw [hcomp] at hc
      simp [can_transition, transitions, List.contains] at hc
  · have hu : update_task_status tm task_id st now = (false, tm) := by
      unfold update_task_status
      rw [ht]
      simp [hc]
    constructor
    · intro htrue
      rw [hu] at htrue
      cases htrue
    · intro _
      rw [hu]

/-- C10: on identical contents, `generate_diff` returns the sentinel
`"No changes in " ++ filename` — a non-empty string, never an empty unified
diff. -/
theorem generate_diff_same_content (C f : String) :
    generate_diff C C f = "No changes in " ++ f ∧ generate_diff C C f ≠ "" := by
  have h : generate_diff C C f = "No changes in " ++ f := by
    unfold generate_diff
    simp
  refine ⟨h, ?_⟩
  rw [h]
  intro hempty
  have hlen := congrArg String.length hempty
  rw [String.length_append] at hlen
  have h14 : "No changes in ".length = 14 := by decide
  have h0 : "".length = 0 := by decide
  rw [h14, h0] at hlen
  omega

/-- C5 (counterexample): applying the generated diff does not reconstruct the
new content: for `C = "a\nb\n"`, `C′ = "a\nc\n"`, the unified diff is produced
correctly, but `apply_diff` strips the line terminators and yields `"ac"`,
not `C′`. -/
theorem apply_generate_diff_not_roundtrip :
    generate_diff "a\nb\n" "a\nc\n" "f" =
      "--- f (old)\n+++ f (new)\n@@ -1,2 +1,2 @@\n a\n-b\n+c\n" ∧
    apply_diff "a\nb\n" (generate_diff "a\nb\n" "a\nc\n" "f") = some "ac" ∧
    some "ac" ≠ some ("a\nc\n" : String) := by
  refine ⟨by rfl, by rfl, by decide⟩

theorem splitBreak1_nil : splitBreak1 [] = [] := rfl

theorem splitBreak1_cons (c : Char) (rest : List Char) :
    splitBreak1 (c :: rest) =
      if isLineBreakChar c then [c] :: splitBreak1 rest
      else
        match splitBreak1 rest with
        | [] => [[c]]
        | line :: lines => (c :: line) :: lines := rfl

theorem splitBreak1_cons_break (c : Char) (rest : List Char)
    (hb : isLineBreakChar c = true) :
    splitBreak1 (c :: rest) = [c] :: splitBreak1 rest := by
  rw [splitBreak1_cons, if_pos hb]

theorem splitBreak1_cons_nb_nil (c : Char) (rest : List Char)
    (hb : isLineBreakChar c = false) (hs : splitBreak1 rest = []) :
    splitBreak1 (c :: rest) = [[c]] := by
  rw [splitBreak1_cons, if_neg (by simp [hb]), hs]

theorem splitBreak1_cons_nb_cons (c : Char) (rest : List Char) (hl : Line)
    (tl : List Line) (hb : isLineBreakChar c = false)
    (hs : splitBreak1 rest = hl :: tl) :
    splitBreak1 (c :: rest) = (c :: hl) :: tl := by
  rw [splitBreak1_cons, if_neg (by simp [hb]), hs]

theorem splitBreak1_cons_ne_nil (c : Char) (rest : List Char) :
    splitBreak1 (c :: rest) ≠ [] := by
  by_cases hb : isLineBreakChar c
  · rw [splitBreak1_cons_break c rest hb]
    simp
  · cases hs : splitBreak1 rest with
    | nil =>
        rw [splitBreak1_cons_nb_nil c rest (by simpa using hb) hs]
        simp
    | cons hl tl =>
        rw [splitBreak1_cons_nb_cons c rest hl tl (by simpa using hb) hs]
        simp

theorem splitBreak1_ne_nil (l : List Char) (h : l ≠ []) : splitBreak1 l ≠ [] := by
  cases l with
  | nil => exact absurd rfl h
  | cons c rest => exact splitBreak1_cons_ne_nil c rest

theorem mem_splitBreak1_ne_nil (l : List Char) (line : Line)
    (h : line ∈ splitBreak1 l) : line ≠ [] := by
  induction l generalizing line with
  | nil => simp [splitBreak1_nil] at h
  | cons c rest ih =>
      by_cases hb : isLineBreakChar c
      · rw [splitBreak1_cons_break c rest hb] at h
        rcases List.mem_cons.mp h with h1 | h1
        · subst h1; simp
        · exact ih line h1
      · cases hs : splitBreak1 rest with
        | nil =>
            rw [splitBreak1_cons_nb_nil c rest (by simpa using hb) hs] at h
            simp at h
            subst h; simp
        | cons hl tl =>
            rw [splitBreak1_cons_nb_cons c rest hl tl (by simpa using hb) hs] at h
            rcases List.mem_cons.mp h with h1 | h1
            · subst h1; simp
            · exact ih line (hs ▸ List.mem_cons_of_mem hl h1)

theorem mem_splitBreak1_subset (l : List Char) (line : Line) (c : Char)
    (hline : line ∈ splitBreak1 l) (hc : c ∈ line) : c ∈ l := by
  induction l generalizing line with
  | nil => simp [splitBreak1_nil] at hline
  | cons c0 rest ih =>
      by_cases hb : isLineBreakChar c0
      · rw [splitBreak1_cons_break c0 rest hb] at hline
        rcases List.mem_cons.mp hline with h1 | h1
        · subst h1
          simp at hc
          subst hc
          exact List.mem_cons_self _ _
        · exact List.mem_cons_of_mem _ (ih line h1 hc)
      · cases hs : splitBreak1 rest with
        | nil =>
            rw [splitBreak1_cons_nb_nil c0 rest (by simpa using hb) hs] at hline
            simp at hline
            subst hline
            simp at hc
            subst hc
            exact List.mem_cons_self _ _
        | cons hl tl =>
            rw [splitBreak1_cons_nb_cons c0 rest hl tl (by simpa using hb) hs] at hline
            rcases List.mem_cons.mp hline with h1 | h1
            · subst h1
              rcases List.mem_cons.mp hc with h2 | h2
              · subst h2; exact List.mem_cons_self _ _
              · exact List.mem_cons_of_mem _
                  (ih hl (hs ▸ List.mem_cons_self hl tl) h2)
            · exact List.mem_cons_of_mem _
                (ih line (hs ▸ List.mem_cons_of_mem hl h1) hc)

theorem splitBreak1_single (l : List Char) (hne : l ≠ [])
    (hint : ∀ c ∈ l.dropLast, isLineBreakChar c = false) :
    splitBreak1 l = [l] := by
  induction l with
  | nil => exact absurd rfl hne
  | cons c rest ih =>
      cases rest with
      | nil =>
          by_cases hb : isLineBreakChar c
          · rw [splitBreak1_cons_break c [] hb, splitBreak1_nil]
          · rw [splitBreak1_cons_nb_nil c [] (by simpa using hb) splitBreak1_nil]
      | cons d rest2 =>
          have hc : isLineBreakChar c = false := hint c (by simp)
          have hrest : splitBreak1 (d :: rest2) = [d :: rest2] := by
            refine ih (by simp) ?_
            intro x hx
            refine hint x ?_
            rw [List.dropLast_cons_of_ne_nil (by simp)]
            exact List.mem_cons_of_mem _ hx
          rw [splitBreak1_cons_nb_cons c (d :: rest2) (d :: rest2) [] hc hrest]

theorem splitBreak1_append (x y : List Char) (hne : x ≠ [])
    (hlast : ∀ c, x.getLast? = some c → isLineBreakChar c = true) :
    splitBreak1 (x ++ y) = splitBreak1 x ++ splitBreak1 y := by
  induction x with
  | nil => exact absurd rfl hne
  | cons c rest ih =>
      cases rest with
      | nil =>
          have hb : isLineBreakChar c = true := hlast c rfl
          rw [List.cons_append, List.nil_append, splitBreak1_cons_break c y hb,
            splitBreak1_cons_break c [] hb, splitBreak1_nil]
          rfl
      | cons d rest2 =>
          have hlast2 : ∀ e, (d :: rest2).getLast? = some e → isLineBreakChar e = true := by
            intro e he
            refine hlast e ?_
            rw [List.getLast?_cons_cons]
            exact he
          have ihx : splitBreak1 (d :: (rest2 ++ y)) =
              splitBreak1 (d :: rest2) ++ splitBreak1 y := by
            have := ih (by simp) hlast2
            simpa using this
          by_cases hb : isLineBreakChar c
          · simp only [List.cons_append]
            rw [splitBreak1_cons_break c _ hb, splitBreak1_cons_break c _ hb, ihx]
            rfl
          · cases hs : splitBreak1 (d :: rest2) with
            | nil => exact absurd hs (splitBreak1_cons_ne_nil d rest2)
            | cons hl tl =>
                have hsy : splitBreak1 (d :: (rest2 ++ y)) = hl :: (tl ++ splitBreak1 y) := by
                  rw [ihx, hs]
                  rfl
                simp only [List.cons_append]
                rw [splitBreak1_cons_nb_cons c _ _ _ (by simpa using hb) hsy,
                  splitBreak1_cons_nb_cons c _ _ _ (by simpa using hb) hs]
                rfl

theorem mergeCRLF_id (ls : List Line)
    (h : ∀ line ∈ ls, line.getLast? ≠ some '\r') : mergeCRLF ls = ls := by
  induction ls with
  | nil => rfl
  | cons line rest ih =>
      have hrest : mergeCRLF rest = rest := ih fun l hl => h l (List.mem_cons_of_mem _ hl)
      unfold mergeCRLF
      rw [hrest]
      cases rest with
      | nil => rfl
      | cons next rest2 =>
          have hline : line.getLast? ≠ some '\r' := h line (List.mem_cons_self _ _)
          simp [hline]

theorem splitlinesKeep_no_cr (l : List Char) (h : '\r' ∉ l) :
    splitlinesKeep l = splitBreak1 l := by
  unfold splitlinesKeep
  apply mergeCRLF_id
  intro line hline hlast
  exact h (mem_splitBreak1_subset l line '\r' hline
    (List.mem_of_mem_getLast? hlast))

theorem stripEOL_cons (c : Char) (l : List Char) (hne : l ≠ [])
    (hcr : '\r' ∉ c :: l) : stripEOL (c :: l) = c :: stripEOL l := by
  have hlast : (c :: l).getLast? = l.getLast? := by
    cases l with
    | nil => exact absurd rfl hne
    | cons d t => rw [List.getLast?_cons_cons]
  have hdrop : (c :: l).dropLast = c :: l.dropLast :=
    List.dropLast_cons_of_ne_nil hne
  have hcr1 : ¬ (c :: l.dropLast).getLast? = some '\r' := by
    intro h2
    have h3 : '\r' ∈ c :: l.dropLast := List.mem_of_mem_getLast? h2
    rcases List.mem_cons.mp h3 with h4 | h4
    · exact hcr (h4 ▸ List.mem_cons_self _ _)
    · exact hcr (List.mem_cons_of_mem _ (List.dropLast_subset l h4))
  have hcr2 : ¬ l.dropLast.getLast? = some '\r' := by
    intro h2
    exact hcr (List.mem_cons_of_mem _ (List.dropLast_subset l
      (List.mem_of_mem_getLast? h2)))
  have e1 : stripEOL (c :: l) =
      if (match l.getLast? with | some e => isLineBreakChar e | none => false) = true
      then c :: l.dropLast else c :: l := by
    unfold stripEOL
    rw [hlast, hdrop]
    rw [if_neg (fun hand => hcr1 hand.2)]
  have e2 : stripEOL l =
      if (match l.getLast? with | some e => isLineBreakChar e | none => false) = true
      then l.dropLast else l := by
    unfold stripEOL
    rw [if_neg (fun hand => hcr2 hand.2)]
  rw [e1, e2]
  by_cases hb : (match l.getLast? with | some e => isLineBreakChar e | none => false) = true
  · rw [if_pos hb, if_pos hb]
  · rw [if_neg hb, if_neg hb]

/-- Every line produced by `splitBreak1` has a break-free interior (all
characters except possibly the final one). -/
theorem mem_splitBreak1_interior (l : List Char) (line : Line)
    (hline : line ∈ splitBreak1 l) :
    ∀ c ∈ line.dropLast, isLineBreakChar c = false := by
  induction l generalizing line with
  | nil => simp [splitBreak1_nil] at hline
  | cons c0 rest ih =>
      by_cases hb : isLineBreakChar c0
      · rw [splitBreak1_cons_break c0 rest hb] at hline
        rcases List.mem_cons.mp hline with h1 | h1
        · subst h1; simp
        · exact ih line h1
      · cases hs : splitBreak1 rest with
        | nil =>
            rw [splitBreak1_cons_nb_nil c0 rest (by simpa using hb) hs] at hline
            simp at hline
            subst hline
            simp
        | cons hl tl =>
            rw [splitBreak1_cons_nb_cons c0 rest hl tl (by simpa using hb) hs] at hline
            rcases List.mem_cons.mp hline with h1 | h1
            · subst h1
              have hlne : hl ≠ [] :=
                mem_splitBreak1_ne_nil rest hl (hs ▸ List.mem_cons_self hl tl)
              rw [List.dropLast_cons_of_ne_nil hlne]
              intro c hc
              rcases List.mem_cons.mp hc with h2 | h2
              · subst h2; simpa using hb
              · exact ih hl (hs ▸ List.mem_cons_self hl tl) c h2
            · exact ih line (hs ▸ List.mem_cons_of_mem hl h1)

/-- Every line of `splitBreak1` except the last ends with a break character. -/
theorem mem_splitBreak1_closed (l : List Char) (line : Line)
    (hline : line ∈ (splitBreak1 l).dropLast) :
    ∃ e, line.getLast? = some e ∧ isLineBreakChar e = true := by
  induction l generalizing line with
  | nil => simp [splitBreak1_nil] at hline
  | cons c0 rest ih =>
      by_cases hb : isLineBreakChar c0
      · rw [splitBreak1_cons_break c0 rest hb] at hline
        cases hs : splitBreak1 rest with
        | nil => rw [hs] at hline; simp at hline
        | cons hl tl =>
            rw [hs, List.dropLast_cons_of_ne_nil (by simp)] at hline
            rcases List.mem_cons.mp hline with h1 | h1
            · subst h1
              exact ⟨c0, rfl, hb⟩
            · exact ih line (hs ▸ h1)
      · cases hs : splitBreak1 rest with
        | nil =>
            rw [splitBreak1_cons_nb_nil c0 rest (by simpa using hb) hs] at hline
            simp at hline
        | cons hl tl =>
            rw [splitBreak1_cons_nb_cons c0 rest hl tl (by simpa using hb) hs] at hline
            cases tl with
            | nil => simp at hline
            | cons t1 t2 =>
                rw [List.dropLast_cons_of_ne_nil (by simp)] at hline
                rcases List.mem_cons.mp hline with h1 | h1
                · subst h1
                  have hlne : hl ≠ [] :=
                    mem_splitBreak1_ne_nil rest hl (hs ▸ List.mem_cons_self hl _)
                  have hhl : hl ∈ (splitBreak1 rest).dropLast := by
                    rw [hs, List.dropLast_cons_of_ne_nil (by simp)]
                    exact List.mem_cons_self _ _
                  obtain ⟨e, he, hbe⟩ := ih hl hhl
                  refine ⟨e, ?_, hbe⟩
                  rw [← he]
                  cases hl with
                  | nil => exact absurd rfl hlne
                  | cons a as => rw [List.getLast?_cons_cons]
                · refine ih line ?_
                  rw [hs, List.dropLast_cons_of_ne_nil (by simp)]
                  exact List.mem_cons_of_mem _ h1

/-- Concatenating non-empty, internally break-free segments, each of which
(except possibly the final one) ends with a break character, splits back into
exactly those segments. -/
theorem splitBreak1_flatten (segs : List (List Char))
    (hne : ∀ s ∈ segs, s ≠ [])
    (hint : ∀ s ∈ segs, ∀ c ∈ s.dropLast, isLineBreakChar c = false)
    (hcl : ∀ s ∈ segs.dropLast, ∀ e, s.getLast? = some e → isLineBreakChar e = true) :
    splitBreak1 segs.flatten = segs := by
  induction segs with
  | nil => rfl
  | cons s rest ih =>
      cases rest with
      | nil =>
          rw [List.flatten_cons, List.flatten_nil, List.append_nil]
          exact splitBreak1_single s (hne s (by simp)) (hint s (by simp))
      | cons r rest2 =>
          have hsne : s ≠ [] := hne s (by simp)
          have hslast : ∀ e, s.getLast? = some e → isLineBreakChar e = true := by
            intro e he
            refine hcl s ?_ e he
            rw [List.dropLast_cons_of_ne_nil (by simp)]
            exact List.mem_cons_self _ _
          rw [List.flatten_cons,
            splitBreak1_append s (r :: rest2).flatten hsne hslast,
            splitBreak1_single s hsne (hint s (by simp))]
          have hrest : splitBreak1 (r :: rest2).flatten = r :: rest2 := by
            refine ih (fun x hx => hne x (List.mem_cons_of_mem _ hx))
              (fun x hx => hint x (List.mem_cons_of_mem _ hx)) ?_
            intro x hx e he
            refine hcl x ?_ e he
            rw [List.dropLast_cons_of_ne_nil (by simp)]
            exact List.mem_cons_of_mem _ hx
          rw [hrest]
          rfl

theorem intercalate_cons_cons_char (sep x : List Char) (xs : List (List Char)) (c : Char) :
    List.intercalate sep ((c :: x) :: xs) = c :: List.intercalate sep (x :: xs) := by
  cases xs <;> simp [List.intercalate]

/-- Stripping the line terminators of `splitBreak1 l` and re-joining the lines
with `'\n'` recovers `l`, provided `l`'s only break character is `'\n'` and
`l` does not end with one. -/
theorem intercalate_strip (l : List Char)
    (h1 : ∀ c ∈ l, isLineBreakChar c = true → c = '\n')
    (h2 : l.getLast? ≠ some '\n') :
    List.intercalate ['\n'] ((splitBreak1 l).map stripEOL) = l := by
  have hnocr : '\r' ∉ l := fun hmem => by
    have := h1 '\r' hmem (by decide)
    exact absurd this (by decide)
  induction l with
  | nil => simp [splitBreak1_nil, List.intercalate]
  | cons c rest ih =>
      have hrest_h1 : ∀ x ∈ rest, isLineBreakChar x = true → x = '\n' :=
        fun x hx => h1 x (List.mem_cons_of_mem _ hx)
      by_cases hb : isLineBreakChar c
      · have hc : c = '\n' := h1 c (List.mem_cons_self _ _) hb
        subst hc
        have hrne : rest ≠ [] := by
          intro hr
          subst hr
          exact h2 rfl
        have hrest_h2 : rest.getLast? ≠ some '\n' := by
          intro hg
          refine h2 ?_
          rw [← hg]
          cases rest with
          | nil => exact absurd rfl hrne
          | cons a as => rw [List.getLast?_cons_cons]
        rw [splitBreak1_cons_break _ _ hb]
        cases hs : splitBreak1 rest with
        | nil => exact absurd hs (splitBreak1_ne_nil rest hrne)
        | cons hl tl =>
            have hstrip : stripEOL ['\n'] = [] := by decide
            rw [List.map_cons, hstrip, ← hs]
            have hic : List.intercalate ['\n'] ([] :: (splitBreak1 rest).map stripEOL) =
                '\n' :: List.intercalate ['\n'] ((splitBreak1 rest).map stripEOL) := by
              rw [hs, List.map_cons]
              simp [List.intercalate]
            rw [hic, ih hrest_h1 hrest_h2
              (fun hmem => hnocr (List.mem_cons_of_mem _ hmem))]
      · cases hs : splitBreak1 rest with
        | nil =>
            have hrnil : rest = [] := by
              by_contra hr
              exact splitBreak1_ne_nil rest hr hs
            subst hrnil
            rw [splitBreak1_cons_nb_nil c [] (by simpa using hb) splitBreak1_nil]
            have hget : ([c] : List Char).getLast? = some c := rfl
            have hc1 : ¬ (([c] : List Char).getLast? = some '\n' ∧
                ([c] : List Char).dropLast.getLast? = some '\r') := by
              intro hand
              rw [hget] at hand
              exact hb (by rw [Option.some_inj.mp hand.1]; decide)
            have hc2 : ¬ (match ([c] : List Char).getLast? with
                | some e => isLineBreakChar e
                | none => false) = true := by
              rw [hget]
              intro hcontr
              exact hb hcontr
            have hstrip : stripEOL [c] = [c] := by
              unfold stripEOL
              rw [if_neg hc1, if_neg hc2]
            rw [List.map_cons, hstrip]
            simp [List.intercalate]
        | cons hl tl =>
            have hrne : rest ≠ [] := by
              intro hr
              subst hr
              simp [splitBreak1_nil] at hs
            have hlne : hl ≠ [] :=
              mem_splitBreak1_ne_nil rest hl (hs ▸ List.mem_cons_self hl tl)
            have hnocr2 : '\r' ∉ c :: hl := by
              intro hmem
              rcases List.mem_cons.mp hmem with hx | hx
              · exact hnocr (hx ▸ List.mem_cons_self _ _)
              · exact hnocr (List.mem_cons_of_mem _
                  (mem_splitBreak1_subset rest hl '\r'
                    (hs ▸ List.mem_cons_self hl tl) hx))
            rw [splitBreak1_cons_nb_cons c rest hl tl (by simpa using hb) hs,
              List.map_cons, stripEOL_cons c hl hlne hnocr2,
              intercalate_cons_cons_char, ← List.map_cons, ← hs]
            have hrest_h2 : rest.getLast? ≠ some '\n' := by
              intro hg
              refine h2 ?_
              rw [← hg]
              cases rest with
              | nil => exact absurd rfl hrne
              | cons a as => rw [List.getLast?_cons_cons]
            rw [ih hrest_h1 hrest_h2 (fun hmem => hnocr (List.mem_cons_of_mem _ hmem))]

theorem digitChar_not_break (m : Nat) : isLineBreakChar (Nat.digitChar m) = false := by
  rcases Nat.lt_or_ge m 16 with h | h
  · interval_cases m <;> decide
  · have hstar : Nat.digitChar m = '*' := by
      rw [Nat.digitChar.eq_def]
      repeat rw [if_neg (by omega)]
    rw [hstar]
    decide

theorem toDigitsCore_not_break (fuel : Nat) :
    ∀ (n : Nat) (ds : List Char),
      (∀ c ∈ ds, isLineBreakChar c = false) →
      ∀ c ∈ Nat.toDigitsCore 10 fuel n ds, isLineBreakChar c = false := by
  induction fuel with
  | zero => exact fun n ds hds c hc => hds c hc
  | succ fuel ih =>
      intro n ds hds c hc
      have heq : Nat.toDigitsCore 10 (fuel + 1) n ds =
          (if n / 10 = 0 then Nat.digitChar (n % 10) :: ds
           else Nat.toDigitsCore 10 fuel (n / 10) (Nat.digitChar (n % 10) :: ds)) := rfl
      rw [heq] at hc
      have hcons : ∀ x ∈ Nat.digitChar (n % 10) :: ds, isLineBreakChar x = false := by
        intro x hx
        rcases List.mem_cons.mp hx with h1 | h1
        · subst h1; exact digitChar_not_break _
        · exact hds x h1
      by_cases h0 : n / 10 = 0
      · rw [if_pos h0] at hc
        exact hcons c hc
      · rw [if_neg h0] at hc
        exact ih (n / 10) _ hcons c hc

theorem natRepr_not_break (n : Nat) :
    ∀ c ∈ (Nat.repr n).data, isLineBreakChar c = false := by
  intro c hc
  exact toDigitsCore_not_break (n + 1) n [] (by simp) c hc

theorem formatRange_not_break (a b : Nat) :
    ∀ c ∈ (formatRangeUnified a b).data, isLineBreakChar c = false := by
  dsimp only [formatRangeUnified]
  split
  · intro c hc
    exact natRepr_not_break _ c hc
  · intro c hc
    rw [String.data_append, String.data_append] at hc
    rcases List.mem_append.mp hc with h1 | h1
    · rcases List.mem_append.mp h1 with h2 | h2
      · exact natRepr_not_break _ c h2
      · simp at h2
        subst h2
        decide
    · exact natRepr_not_break _ c h1

theorem isPrefixOf_of_isPrefixOf_stripEOL (p line : List Char)
    (h : p.isPrefixOf (stripEOL line) = true) : p.isPrefixOf line = true := by
  rw [List.isPrefixOf_iff_prefix] at h ⊢
  refine h.trans ?_
  unfold stripEOL
  split
  · exact (List.dropLast_prefix _).trans (List.dropLast_prefix _)
  · split
    · exact List.dropLast_prefix _
    · exact List.prefix_refl _

theorem applyLoop_nil (lines : List Line) (acc : List Line) :
    applyLoop lines [] acc = some acc := rfl

theorem applyLoop_skip_dashes (lines : List Line) (t : List Char)
    (rest acc : List Line) :
    applyLoop lines (('-' :: '-' :: '-' :: t) :: rest) acc = applyLoop lines rest acc := by
  simp [applyLoop, List.isPrefixOf]

theorem applyLoop_skip_plusses (lines : List Line) (t : List Char)
    (rest acc : List Line) :
    applyLoop lines (('+' :: '+' :: '+' :: t) :: rest) acc = applyLoop lines rest acc := by
  simp [applyLoop, List.isPrefixOf]

theorem applyLoop_skip_atat (lines : List Line) (t : List Char)
    (rest acc : List Line) :
    applyLoop lines (('@' :: '@' :: t) :: rest) acc = applyLoop lines rest acc := by
  simp [applyLoop, List.isPrefixOf]

theorem applyLoop_skip_other (lines : List Line) (ch : Char) (t : List Char)
    (rest acc : List Line)
    (h1 : ('-' : Char) ≠ ch) (h2 : ('+' : Char) ≠ ch) (h3 : ('@' : Char) ≠ ch)
    (h4 : (' ' : Char) ≠ ch) :
    applyLoop lines ((ch :: t) :: rest) acc = applyLoop lines rest acc := by
  simp [applyLoop, List.isPrefixOf, h1, h2, h3, h4]

theorem applyLoop_plus_batch (lines : List Line) (pls : List Line) (acc : List Line)
    (h : ∀ p ∈ pls, ∃ t, p = '+' :: t ∧ ['+', '+'].isPrefixOf t = false) :
    applyLoop lines pls acc = some (acc ++ pls.map fun p => p.drop 1) := by
  induction pls generalizing acc with
  | nil => simp [applyLoop]
  | cons p rest ih =>
      obtain ⟨t, rfl, hp⟩ := h p (List.mem_cons_self _ _)
      have step : applyLoop lines (('+' :: t) :: rest) acc =
          applyLoop lines rest (acc ++ [t]) := by
        simp [applyLoop, List.isPrefixOf, hp]
      rw [step, ih (acc ++ [t]) (fun q hq => h q (List.mem_cons_of_mem _ hq))]
      simp

theorem opcodesLoop_insert_only (N : Nat) (hN : 0 < N) :
    opcodesLoop [(0, N, 0)] 0 0 = [⟨.insert, 0, 0, 0, N⟩] := by
  dsimp only [opcodesLoop]
  rw [if_neg (by omega : ¬ ((0 : Nat) < 0 ∧ (0 : Nat) < N)),
    if_neg (by omega : ¬ (0 : Nat) < 0), if_pos hN,
    if_neg (by omega : ¬ (0 : Nat) ≠ 0)]
  rfl

theorem getOpcodes_nil_left (hd : Line) (tl : List Line) :
    getOpcodes [] (hd :: tl) = [⟨.insert, 0, 0, 0, (hd :: tl).length⟩] := by
  unfold getOpcodes
  rw [show getMatchingBlocks [] (hd :: tl) = [(0, (hd :: tl).length, 0)] from rfl]
  exact opcodesLoop_insert_only (hd :: tl).length (by simp)

theorem groupedOpcodes_nil_left (hd : Line) (tl : List Line) :
    groupedOpcodes [] (hd :: tl) 3 = [[⟨.insert, 0, 0, 0, (hd :: tl).length⟩]] := by
  unfold groupedOpcodes
  rw [getOpcodes_nil_left]
  rfl

theorem unifiedDiff_nil_left (hd : Line) (tl : List Line) (ff tf : String) :
    unifiedDiff [] (hd :: tl) ff tf =
      ("--- " ++ ff ++ "\n") :: ("+++ " ++ tf ++ "\n") ::
      ("@@ -" ++ formatRangeUnified 0 0 ++ " +" ++
        formatRangeUnified 0 (hd :: tl).length ++ " @@" ++ "\n") ::
      (hd :: tl).map (fun l => strOfChars ('+' :: l)) := by
  unfold unifiedDiff
  rw [groupedOpcodes_nil_left]
  simp only [hunkLines, opcodeLines, List.getLastD, List.map_cons, List.map_nil,
    List.flatten_cons, List.flatten_nil, List.append_nil, List.flatMap_cons,
    List.flatMap_nil, sliceList, List.drop_zero, Nat.sub_zero, List.take_length,
    List.getLast_singleton]

theorem stripEOL_concat_newline (A : List Char) (h : '\r' ∉ A) :
    stripEOL (A ++ ['\n']) = A := by
  have hg : (A ++ ['\n']).getLast? = some '\n' := List.getLast?_concat _
  have hd : (A ++ ['\n']).dropLast = A := List.dropLast_concat
  have h1 : ¬ ((A ++ ['\n']).getLast? = some '\n' ∧
      (A ++ ['\n']).dropLast.getLast? = some '\r') := by
    intro hand
    rw [hd] at hand
    exact h (List.mem_of_mem_getLast? hand.2)
  have h2 : (match (A ++ ['\n']).getLast? with
      | some e => isLineBreakChar e
      | none => false) = true := by
    rw [hg]
    decide
  unfold stripEOL
  rw [if_neg h1, if_pos h2, hd]

theorem stripEOL_no_break (line : List Char)
    (h : ∀ c ∈ line, isLineBreakChar c = false) : stripEOL line = line := by
  have h1 : ¬ (line.getLast? = some '\n' ∧ line.dropLast.getLast? = some '\r') := by
    intro hand
    exact absurd (h '\n' (List.mem_of_mem_getLast? hand.1)) (by decide)
  have h2 : ¬ (match line.getLast? with
      | some e => isLineBreakChar e
      | none => false) = true := by
    cases hg : line.getLast? with
    | none => simp
    | some e =>
        intro hcontr
        have hcontr2 : isLineBreakChar e = true := hcontr
        rw [h e (List.mem_of_mem_getLast? hg)] at hcontr2
        exact Bool.false_ne_true hcontr2
  unfold stripEOL
  rw [if_neg h1, if_neg h2]

theorem applyLoop_skip_headerish (lines : List Line) (dl : Line) (rest acc : List Line)
    (h : (['-', '-', '-'].isPrefixOf dl || ['+', '+', '+'].isPrefixOf dl ||
      ['@', '@'].isPrefixOf dl) = true) :
    applyLoop lines (dl :: rest) acc = applyLoop lines rest acc := by
  simp only [Bool.or_eq_true] at h
  simp only [applyLoop]
  by_cases h3 : (['-', '-', '-'].isPrefixOf dl || ['+', '+', '+'].isPrefixOf dl) = true
  · rw [if_pos h3]
  · have hat : ['@', '@'].isPrefixOf dl = true := by
      rcases h with (h1 | h1) | h1
      · exact absurd (by simp [h1]) h3
      · exact absurd (by simp [h1]) h3
      · exact h1
    rw [if_neg (by simp [h3] : ¬ _), if_pos hat]

theorem strOfChars_data (l : List Char) : (strOfChars l).data = l := rfl

theorem strOfChars_of_data (s : String) : strOfChars s.data = s := by
  cases s
  rfl

/-- C5 (amended): the diff round-trip does hold in the one regime the code
supports — overwriting an empty original.  For `C = ""` and every `C′` whose
only line-break character is `'\n'`, which does not end in `'\n'` and none of
whose lines begins with `"++"`, and every filename free of line-break
characters, `apply_diff C (generate_diff C C′ f) = some C′`.  For non-empty
originals the round-trip generally fails (see the counterexample): the
applier strips every line terminator. -/
theorem apply_generate_diff_empty_original (C' f : String)
    (hnl : ∀ c ∈ C'.data, isLineBreakChar c = true → c = '\n')
    (hend : C'.data.getLast? ≠ some '\n')
    (hpp : ∀ line ∈ splitBreak1 C'.data, ['+', '+'].isPrefixOf line = false)
    (hf : ∀ c ∈ f.data, isLineBreakChar c = false) :
    apply_diff "" (generate_diff "" C' f) = some C' := by
  have hnocr : '\r' ∉ C'.data := fun hmem =>
    absurd (hnl '\r' hmem (by decide)) (by decide)
  by_cases hC : C' = ""
  · subst hC
    have hgen : generate_diff "" "" f = "No changes in " ++ f := by
      unfold generate_diff
      rw [if_pos rfl]
    have hlit : ∀ c ∈ "No changes in ".data, isLineBreakChar c = false := by decide
    have hwnb : ∀ c ∈ "No changes in ".data ++ f.data, isLineBreakChar c = false := by
      intro c hc
      rcases List.mem_append.mp hc with h1 | h1
      · exact hlit c h1
      · exact hf c h1
    have hlitne : ("No changes in ".data : List Char) ≠ [] := by decide
    have hsplit : splitlinesStrip ("No changes in " ++ f).data =
        ["No changes in ".data ++ f.data] := by
      unfold splitlinesStrip
      rw [String.data_append,
        splitlinesKeep_no_cr _ (fun hmem => absurd (hwnb '\r' hmem) (by decide)),
        splitBreak1_single _ (fun h => hlitne (List.append_eq_nil.mp h).1)
          (fun c hc => hwnb c (List.dropLast_subset _ hc)),
        List.map_cons, List.map_nil, stripEOL_no_break _ hwnb]
    have hstep : applyLoop [] ["No changes in ".data ++ f.data] [] = some [] := by
      rw [show ("No changes in ".data ++ f.data : List Char) =
        'N' :: ("o changes in ".data ++ f.data) from rfl]
      rw [applyLoop_skip_other [] 'N' _ [] [] (by decide) (by decide) (by decide)
        (by decide)]
      rfl
    rw [hgen]
    unfold apply_diff
    rw [hsplit, show splitlinesKeep "".data = [] from rfl]
    dsimp only
    rw [hstep]
    simp [List.intercalate]
    rfl
  · have hdne : C'.data ≠ [] := by
      intro h
      exact hC (String.ext (h.trans (rfl : ([] : List Char) = "".data)))
    cases hsb : splitBreak1 C'.data with
    | nil => exact absurd hsb (splitBreak1_ne_nil _ hdne)
    | cons hd tl =>
        have hLmem : ∀ line ∈ hd :: tl, line ∈ splitBreak1 C'.data := fun line hl =>
          hsb ▸ hl
        have hlne : ∀ line ∈ hd :: tl, line ≠ [] := fun line hl =>
          mem_splitBreak1_ne_nil _ _ (hLmem line hl)
        have hlint : ∀ line ∈ hd :: tl, ∀ c ∈ line.dropLast, isLineBreakChar c = false :=
          fun line hl => mem_splitBreak1_interior _ _ (hLmem line hl)
        have hlsub : ∀ line ∈ hd :: tl, ∀ c ∈ line, c ∈ C'.data := fun line hl c hc =>
          mem_splitBreak1_subset _ _ _ (hLmem line hl) hc
        have hlcr : ∀ line ∈ hd :: tl, '\r' ∉ line := fun line hl hmem =>
          hnocr (hlsub line hl '\r' hmem)
        have hgen : generate_diff "" C' f =
            joinAll (("--- " ++ (f ++ " (old)") ++ "\n") ::
              ("+++ " ++ (f ++ " (new)") ++ "\n") ::
              ("@@ -" ++ formatRangeUnified 0 0 ++ " +" ++
                formatRangeUnified 0 (hd :: tl).length ++ " @@" ++ "\n") ::
              (hd :: tl).map (fun l => strOfChars ('+' :: l))) := by
          unfold generate_diff
          rw [if_neg (fun h => hC h.symm),
            show splitlinesKeep "".data = [] from rfl,
            splitlinesKeep_no_cr C'.data hnocr, hsb, unifiedDiff_nil_left]
        have hA1 : ("--- " ++ (f ++ " (old)") ++ "\n").data =
            ('-' :: '-' :: '-' :: ' ' :: (f.data ++ " (old)".data)) ++ ['\n'] := by
          rw [String.data_append, String.data_append, String.data_append]
          rfl
        have hA2 : ("+++ " ++ (f ++ " (new)") ++ "\n").data =
            ('+' :: '+' :: '+' :: ' ' :: (f.data ++ " (new)".data)) ++ ['\n'] := by
          rw [String.data_append, String.data_append, String.data_append]
          rfl
        have hA3 : ("@@ -" ++ formatRangeUnified 0 0 ++ " +" ++
            formatRangeUnified 0 (hd :: tl).length ++ " @@" ++ "\n").data =
            ('@' :: '@' :: ' ' :: '-' :: ((formatRangeUnified 0 0).data ++
              (' ' :: '+' :: ((formatRangeUnified 0 (hd :: tl).length).data ++
                " @@".data)))) ++ ['\n'] := by
          rw [String.data_append, String.data_append, String.data_append,
            String.data_append, String.data_append]
          simp [List.append_assoc]
        set A1 : List Char := '-' :: '-' :: '-' :: ' ' :: (f.data ++ " (old)".data)
          with hA1def
        set A2 : List Char := '+' :: '+' :: '+' :: ' ' :: (f.data ++ " (new)".data)
          with hA2def
        set A3 : List Char := '@' :: '@' :: ' ' :: '-' :: ((formatRangeUnified 0 0).data ++
          (' ' :: '+' :: ((formatRangeUnified 0 (hd :: tl).length).data ++ " @@".data)))
          with hA3def
        have hA1nb : ∀ c ∈ A1, isLineBreakChar c = false := by
          intro c hc
          rw [hA1def] at hc
          simp only [List.mem_cons] at hc
          rcases hc with rfl | rfl | rfl | rfl | hc
          · decide
          · decide
          · decide
          · decide
          · rcases List.mem_append.mp hc with h1 | h1
            · exact hf c h1
            · exact (by decide : ∀ x ∈ " (old)".data, isLineBreakChar x = false) c h1
        have hA2nb : ∀ c ∈ A2, isLineBreakChar c = false := by
          intro c hc
          rw [hA2def] at hc
          simp only [List.mem_cons] at hc
          rcases hc with rfl | rfl | rfl | rfl | hc
          · decide
          · decide
          · decide
          · decide
          · rcases List.mem_append.mp hc with h1 | h1
            · exact hf c h1
            · exact (by decide : ∀ x ∈ " (new)".data, isLineBreakChar x = false) c h1
        have hA3nb : ∀ c ∈ A3, isLineBreakChar c = false := by
          intro c hc
          rw [hA3def] at hc
          simp only [List.mem_cons] at hc
          rcases hc with rfl | rfl | rfl | rfl | hc
          · decide
          · decide
          · decide
          · decide
          · rcases List.mem_append.mp hc with h1 | h1
            · exact formatRange_not_break _ _ c h1
            · simp only [List.mem_cons] at h1
              rcases h1 with rfl | rfl | h1
              · decide
              · decide
              · rcases List.mem_append.mp h1 with h2 | h2
                · exact formatRange_not_break _ _ c h2
                · exact (by decide : ∀ x ∈ " @@".data, isLineBreakChar x = false) c h2
        set segs : List (List Char) := (A1 ++ ['\n']) :: (A2 ++ ['\n']) ::
          (A3 ++ ['\n']) :: (hd :: tl).map (fun l => '+' :: l) with hsegsdef
        have hdiffdata : (generate_diff "" C' f).data = segs.flatten := by
          rw [hgen]
          show ((("--- " ++ (f ++ " (old)") ++ "\n") ::
              ("+++ " ++ (f ++ " (new)") ++ "\n") ::
              ("@@ -" ++ formatRangeUnified 0 0 ++ " +" ++
                formatRangeUnified 0 (hd :: tl).length ++ " @@" ++ "\n") ::
              (hd :: tl).map (fun l => strOfChars ('+' :: l))).map String.data).flatten =
            _
          rw [List.map_cons, List.map_cons, List.map_cons, List.map_map]
          rw [hA1, hA2, hA3, hsegsdef]
          have hmm : ((hd :: tl).map (String.data ∘ fun l => strOfChars ('+' :: l))) =
              (hd :: tl).map (fun l => '+' :: l) :=
            List.map_congr_left fun x _ => rfl
          rw [hmm]
        have hsegne : ∀ s ∈ segs, s ≠ [] := by
          intro s hs
          rw [hsegsdef] at hs
          simp only [List.mem_cons] at hs
          rcases hs with rfl | rfl | rfl | hs
          · simp
          · simp
          · simp
          · obtain ⟨line, _, rfl⟩ := List.mem_map.mp hs
            simp
        have hsegint : ∀ s ∈ segs, ∀ c ∈ s.dropLast, isLineBreakChar c = false := by
          intro s hs
          rw [hsegsdef] at hs
          simp only [List.mem_cons] at hs
          rcases hs with rfl | rfl | rfl | hs
          · rw [List.dropLast_concat]
            exact hA1nb
          · rw [List.dropLast_concat]
            exact hA2nb
          · rw [List.dropLast_concat]
            exact hA3nb
          · obtain ⟨line, hline, rfl⟩ := List.mem_map.mp hs
            rw [List.dropLast_cons_of_ne_nil (hlne line hline)]
            intro c hc
            rcases List.mem_cons.mp hc with h1 | h1
            · subst h1; decide
            · exact hlint line hline c h1
        have hsegcl : ∀ s ∈ segs.dropLast, ∀ e, s.getLast? = some e →
            isLineBreakChar e = true := by
          intro s hs
          rw [hsegsdef] at hs
          have hmapne : (hd :: tl).map (fun l => '+' :: l) ≠ [] := by simp
          rw [List.dropLast_cons_of_ne_nil (by simp),
            List.dropLast_cons_of_ne_nil (by simp),
            List.dropLast_cons_of_ne_nil hmapne] at hs
          simp only [List.mem_cons] at hs
          rcases hs with rfl | rfl | rfl | hs
          · intro e he
            rw [List.getLast?_concat] at he
            cases he
            decide
          · intro e he
            rw [List.getLast?_concat] at he
            cases he
            decide
          · intro e he
            rw [List.getLast?_concat] at he
            cases he
            decide
          · rw [← List.map_dropLast] at hs
            obtain ⟨line, hline, rfl⟩ := List.mem_map.mp hs
            intro e he
            have hlinemem : line ∈ hd :: tl := List.dropLast_subset _ hline
            have hlast : ('+' :: line).getLast? = line.getLast? := by
              cases hl2 : line with
              | nil => exact absurd hl2 (hlne line hlinemem)
              | cons a as => rw [List.getLast?_cons_cons]
            rw [hlast] at he
            obtain ⟨e2, he2, hbe2⟩ := mem_splitBreak1_closed C'.data line (hsb ▸ hline)
            rw [he2] at he
            cases he
            exact hbe2
        have hsegcr : '\r' ∉ segs.flatten := by
          intro hmem
          obtain ⟨s, hs, hcs⟩ := List.mem_flatten.mp hmem
          rw [hsegsdef] at hs
          simp only [List.mem_cons] at hs
          rcases hs with rfl | rfl | rfl | hs
          · rcases List.mem_append.mp hcs with h1 | h1
            · exact absurd (hA1nb '\r' h1) (by decide)
            · simp at h1
          · rcases List.mem_append.mp hcs with h1 | h1
            · exact absurd (hA2nb '\r' h1) (by decide)
            · simp at h1
          · rcases List.mem_append.mp hcs with h1 | h1
            · exact absurd (hA3nb '\r' h1) (by decide)
            · simp at h1
          · obtain ⟨line, hline, rfl⟩ := List.mem_map.mp hs
            rcases List.mem_cons.mp hcs with h1 | h1
            · exact absurd h1 (by decide)
            · exact hlcr line hline h1
        have hstrip : splitlinesStrip (generate_diff "" C' f).data =
            A1 :: A2 :: A3 :: (hd :: tl).map (fun line => '+' :: stripEOL line) := by
          unfold splitlinesStrip
          rw [hdiffdata, splitlinesKeep_no_cr _ hsegcr,
            splitBreak1_flatten segs hsegne hsegint hsegcl, hsegsdef]
          rw [List.map_cons, List.map_cons, List.map_cons, List.map_map]
          rw [stripEOL_concat_newline A1 (fun hmem => absurd (hA1nb '\r' hmem) (by decide)),
            stripEOL_concat_newline A2 (fun hmem => absurd (hA2nb '\r' hmem) (by decide)),
            stripEOL_concat_newline A3 (fun hmem => absurd (hA3nb '\r' hmem) (by decide))]
          have hmm : (hd :: tl).map (stripEOL ∘ fun l => '+' :: l) =
              (hd :: tl).map (fun line => '+' :: stripEOL line) :=
            List.map_congr_left fun line hline =>
              stripEOL_cons '+' line (hlne line hline) (fun hmem => by
                rcases List.mem_cons.mp hmem with h1 | h1
                · exact absurd h1 (by decide)
                · exact hlcr line hline h1)
          rw [hmm]
        have hbatch : ∀ p ∈ (hd :: tl).map (fun line => '+' :: stripEOL line),
            ∃ t, p = '+' :: t ∧ ['+', '+'].isPrefixOf t = false := by
          intro p hp
          obtain ⟨line, hline, rfl⟩ := List.mem_map.mp hp
          refine ⟨stripEOL line, rfl, ?_⟩
          cases hpre : ['+', '+'].isPrefixOf (stripEOL line)
          · rfl
          · exact absurd (isPrefixOf_of_isPrefixOf_stripEOL _ _ hpre)
              (by rw [hpp line (hLmem line hline)]; simp)
        have happly : applyLoop [] (A1 :: A2 :: A3 ::
            (hd :: tl).map (fun line => '+' :: stripEOL line)) [] =
            some ((hd :: tl).map stripEOL) := by
          rw [applyLoop_skip_headerish [] A1 _ [] (by rw [hA1def]; rfl),
            applyLoop_skip_headerish [] A2 _ [] (by rw [hA2def]; rfl),
            applyLoop_skip_headerish [] A3 _ [] (by rw [hA3def]; rfl),
            applyLoop_plus_batch [] _ [] hbatch]
          rw [List.nil_append, List.map_map]
          exact congrArg some (List.map_congr_left fun line _ => rfl)
        unfold apply_diff
        rw [hstrip, show splitlinesKeep "".data = [] from rfl]
        dsimp only
        rw [happly]
        show some (strOfChars (List.intercalate ['\n'] ((hd :: tl).map stripEOL))) = _
        rw [← hsb, intercalate_strip C'.data hnl hend, strOfChars_of_data]

/-- Witness for `apply_generate_diff_empty_original` at the concrete pair
`C′ = "a"`, `f = "t"`. -/
theorem apply_generate_diff_empty_original_witness :
    apply_diff "" (generate_diff "" "a" "t") = some "a" :=
  apply_generate_diff_empty_original "a" "t" (by decide) (by decide) (by decide)
    (by decide)

/-- Witness for `update_status_timestamp_discipline` at the concrete
transition `A : PENDING → IN_PROGRESS` (tick 1). -/
theorem update_status_timestamp_discipline_witness :
    ((update_task_status tmS0 "A" TaskStatus.in_progress 1).1 = true →
        taskAStarted.started_at =
          (if TaskStatus.in_progress = TaskStatus.in_progress then some 1
           else taskA.started_at) ∧
        taskAStarted.completed_at =
          (if TaskStatus.in_progress = TaskStatus.completed then some 1
           else taskA.completed_at)) ∧
    (taskA.status = TaskStatus.completed →
      (update_task_status tmS0 "A" TaskStatus.in_progress 1).1 = false) :=
  update_status_timestamp_discipline tmS0 "A" TaskStatus.in_progress 1 taskA taskAStarted
    (by decide) (by decide)

/-- C2 (the claim is right, the code is wrong): the batch
`[{"filename": "../secret", "code": "x"}]` against the managed root
`outputs` is *not* rejected — the engine reports success, and the content
lands at `<cwd>/secret`, outside the managed root — although the repository's
own `SafetyChecker.validate_filename` (dead code: never called by the
engine) flags exactly this path as directory traversal. -/
theorem write_escapes_managed_root :
    escapeOut.1.success = ["../secret"] ∧
    escapeOut.1.failed = [] ∧
    aGet escapeOut.2.1.files ["home", "agent", "secret"] = some "x" ∧
    ¬ (["home", "agent", "outputs"] <+: ["home", "agent", "secret"]) ∧
    validate_filename "../secret" = ["Potential directory traversal in filename"] := by
  refine ⟨by decide, by decide, by decide, by decide, by decide⟩

/-- C9 (counterexample): with dry-run enabled, a batch writing `d/a.py` still
creates the directory `outputs/d` on disk (step 1's `mkdir` is not guarded by
the dry-run flag), so the target directory is *not* left unchanged; file
contents and the in-memory history are untouched and the diff is still
returned. -/
theorem dry_run_still_makes_directories :
    dryOut.2.1.files = fs0.files ∧
    dryOut.2.2 = fmDry ∧
    ["home", "agent", "outputs", "d"] ∈ dryOut.2.1.dirs ∧
    ["home", "agent", "outputs", "d"] ∉ fs0.dirs ∧
    dryOut.1.diffs = [("d/a.py", "")] := by
  refine ⟨by decide, by decide, by decide, by decide, by decide⟩

theorem mkdirPAux_files (fuel : Nat) :
    ∀ (fs : FS) (p : List String) (fs' : FS),
      mkdirPAux fuel fs p = some fs' → fs'.files = fs.files := by
  induction fuel with
  | zero =>
      intro fs p fs' h
      unfold mkdirPAux at h
      split at h
      · cases h; rfl
      · cases h
  | succ fuel ih =>
      intro fs p fs' h
      unfold mkdirPAux at h
      split at h
      · cases h; rfl
      · split at h
        · cases h
        · cases hrec : mkdirPAux fuel fs p.dropLast with
          | none => rw [hrec] at h; cases h
          | some fs2 =>
              rw [hrec] at h
              cases h
              exact ih fs p.dropLast fs2 hrec

theorem mkdirParents_files (fs : FS) (p : List String) (fs' : FS)
    (h : fs.mkdirParents p = some fs') : fs'.files = fs.files :=
  mkdirPAux_files _ fs p fs' h

/-- In dry-run mode a single `_write_file_safe` call changes neither the file
map nor the manager, creates no backup, and reports the diff against the
current content when it succeeds. -/
theorem write_file_safe_dry (fm : FileManager) (fs : FS)
    (filename content task_id ts : String) (hdry : fm.dry_run = true) :
    (write_file_safe fm fs filename content task_id ts).2.1.files = fs.files ∧
    (write_file_safe fm fs filename content task_id ts).2.2 = fm ∧
    (write_file_safe fm fs filename content task_id ts).1.backup = none := by
  unfold write_file_safe
  dsimp only
  cases hmk : fs.mkdirParents (resolveP (lexParent (joinPath fm.output_dir filename))) with
  | none => exact ⟨rfl, rfl, rfl⟩
  | some fs1 =>
      have hfiles : fs1.files = fs.files := mkdirParents_files fs _ fs1 hmk
      dsimp only
      by_cases hdir : fs1.isDir (resolveP (joinPath fm.output_dir filename)) = true
      · rw [if_pos hdir]
        exact ⟨hfiles, rfl, rfl⟩
      · rw [if_neg hdir]
        rw [hdry]
        cases hold : aGet fs1.files (resolveP (joinPath fm.output_dir filename)) with
        | none => exact ⟨hfiles, rfl, rfl⟩
        | some o => exact ⟨hfiles, rfl, rfl⟩

theorem write_files_aux_dry (task_id : String) (z : List ((String × String) × String)) :
    ∀ (fm : FileManager) (fs : FS) (acc : BatchResult),
      fm.dry_run = true →
      (write_files_aux task_id fm fs z acc).2.1.files = fs.files ∧
      (write_files_aux task_id fm fs z acc).2.2 = fm ∧
      (write_files_aux task_id fm fs z acc).1.backups = acc.backups := by
  induction z with
  | nil => exact fun fm fs acc _ => ⟨rfl, rfl, rfl⟩
  | cons e rest ih =>
      intro fm fs acc hdry
      obtain ⟨⟨filename, code⟩, ts⟩ := e
      obtain ⟨h1, h2, h3⟩ := write_file_safe_dry fm fs filename code task_id ts hdry
      unfold write_files_aux
      set r := write_file_safe fm fs filename code task_id ts with hr
      have hdry2 : r.2.2.dry_run = true := by rw [h2]; exact hdry
      obtain ⟨g1, g2, g3⟩ := ih r.2.2 r.2.1 (recordResult acc filename r.1) hdry2
      refine ⟨g1.trans h1, g2.trans h2, ?_⟩
      rw [g3]
      unfold recordResult
      split
      · rw [h3]
      · rfl

/-- C9 (amended): with dry-run enabled, `write_files` leaves every file's
content, the persisted history file, the backup files and the in-memory
engine state unchanged, reports no backups, and still computes and returns
the per-file diffs; the *only* disk effect is that the target paths' parent
directories are still created (see the counterexample), and for batches of
flat paths even that vanishes, so the filesystem is untouched. -/
theorem dry_run_no_disk_effects (fm : FileManager) (fs : FS)
    (files : List (String × String)) (task_id : String) (tss : List String)
    (hdry : fm.dry_run = true) :
    (write_files fm fs files task_id tss).2.1.files = fs.files ∧
    (write_files fm fs files task_id tss).2.2 = fm ∧
    (write_files fm fs files task_id tss).1.backups = [] := by
  obtain ⟨h1, h2, h3⟩ := write_files_aux_dry task_id (files.zip tss) fm fs
    { success := [], failed := [], backups := [], diffs := [] } hdry
  unfold write_files
  dsimp only
  refine ⟨?_, h2, h3⟩
  unfold save_history
  rw [h2, hdry]
  exact h1

theorem dry_run_no_disk_effects_witness :
    fmDry.dry_run = true ∧
    ((write_files fmDry fs0 [("d/a.py", "x")] "T1" ["20250101_000000"]).2.1.files = fs0.files ∧
     (write_files fmDry fs0 [("d/a.py", "x")] "T1" ["20250101_000000"]).2.2 = fmDry ∧
     (write_files fmDry fs0 [("d/a.py", "x")] "T1" ["20250101_000000"]).1.backups = []) :=
  ⟨by decide,
   dry_run_no_disk_effects fmDry fs0 [("d/a.py", "x")] "T1" ["20250101_000000"] (by decide)⟩

/-- C3 (counterexample): the batch writing the nested path `src/main.py`
does create a backup — but at `backups/src/main.py.<ts>.T1.bak`, one
directory *below* the backup root, and `rollback_to_task` lists backups with
a non-recursive `glob` of the backup root, so it finds nothing: the rollback
reports neither a restore nor a failure, and the file keeps its post-batch
content `"new"` instead of being restored to `"old"`. -/
theorem rollback_misses_nested_backup :
    nestedOut.1.backups = ["outputs/backups/src/main.py.20250101_000000.T1.bak"] ∧
    aGet nestedOut.2.1.files
      ["home", "agent", "outputs", "backups", "src",
        "main.py.20250101_000000.T1.bak"] = some "old" ∧
    aGet nestedOut.2.1.files ["home", "agent", "outputs", "src", "main.py"] = some "new" ∧
    nestedRollback.1.restored = [] ∧
    nestedRollback.1.failed = [] ∧
    nestedRollback.2 = nestedOut.2.1 := by
  refine ⟨by decide, by decide, by decide, by decide, by decide, by decide⟩

/-! ### Association-list lemmas for the rollback development -/

theorem aGet_insert_self {κ α : Type} [DecidableEq κ] (l : List (κ × α)) (k : κ) (v : α) :
    aGet (aInsert l k v) k = some v := by
  induction l with
  | nil => simp [aInsert, aGet]
  | cons p rest ih =>
      obtain ⟨k', v'⟩ := p
      by_cases h : k' = k <;> simp [aInsert, aGet, h, ih]

theorem aGet_insert_ne {κ α : Type} [DecidableEq κ] (l : List (κ × α)) (k k₀ : κ) (v : α)
    (h : k₀ ≠ k) : aGet (aInsert l k v) k₀ = aGet l k₀ := by
  induction l with
  | nil =>
      have hne : ¬ k = k₀ := fun hh => h hh.symm
      simp [aInsert, aGet, hne]
  | cons p rest ih =>
      obtain ⟨k', v'⟩ := p
      by_cases hk : k' = k
      · subst hk
        have hne : ¬ k' = k₀ := fun hh => h hh.symm
        simp [aInsert, aGet, hne]
      · simp only [aInsert, if_neg hk, aGet]
        by_cases hk0 : k' = k₀
        · simp [hk0]
        · simp [hk0, ih]

theorem aInsert_self {κ α : Type} [DecidableEq κ] (l : List (κ × α)) (k : κ) (v : α)
    (h : aGet l k = some v) : aInsert l k v = l := by
  induction l with
  | nil => simp [aGet] at h
  | cons p rest ih =>
      obtain ⟨k', v'⟩ := p
      by_cases hk : k' = k
      · subst hk
        have : v' = v := by simpa [aGet] using h
        simp [aInsert, this]
      · have h2 : aGet rest k = some v := by simpa [aGet, hk] using h
        simp [aInsert, hk, ih h2]

theorem aGet_isSome_mem {κ α : Type} [DecidableEq κ] (l : List (κ × α)) (k : κ)
    (h : (aGet l k).isSome = true) : k ∈ l.map Prod.fst := by
  induction l with
  | nil => simp [aGet] at h
  | cons p rest ih =>
      obtain ⟨k', v'⟩ := p
      by_cases hk : k' = k
      · simp [hk]
      · have h2 : (aGet rest k).isSome = true := by simpa [aGet, hk] using h
        simp [ih h2]

theorem aInsert_map_fst_mem {κ α : Type} [DecidableEq κ] (l : List (κ × α)) (k : κ) (v : α)
    (h : (aGet l k).isSome = true) : (aInsert l k v).map Prod.fst = l.map Prod.fst := by
  induction l with
  | nil => simp [aGet] at h
  | cons p rest ih =>
      obtain ⟨k', v'⟩ := p
      by_cases hk : k' = k
      · subst hk
        simp [aInsert]
      · have h2 : (aGet rest k).isSome = true := by simpa [aGet, hk] using h
        simp [aInsert, hk, ih h2]

theorem aInsert_map_fst_new {κ α : Type} [DecidableEq κ] (l : List (κ × α)) (k : κ) (v : α)
    (h : aGet l k = none) : (aInsert l k v).map Prod.fst = l.map Prod.fst ++ [k] := by
  induction l with
  | nil => simp [aInsert]
  | cons p rest ih =>
      obtain ⟨k', v'⟩ := p
      by_cases hk : k' = k
      · subst hk
        simp [aGet] at h
      · have h2 : aGet rest k = none := by simpa [aGet, hk] using h
        simp [aInsert, hk, ih h2]

/-! ### `str.split` / `str.join` lemmas for backup-name parsing -/

theorem splitOnChar_ne_nil (sep : Char) (l : List Char) : splitOnChar sep l ≠ [] := by
  cases l with
  | nil => simp [splitOnChar]
  | cons c rest =>
      unfold splitOnChar
      by_cases hc : c = sep
      · simp [hc]
      · rw [if_neg hc]
        cases splitOnChar sep rest <;> simp

theorem splitOnChar_no_sep (sep : Char) (l : List Char) (h : sep ∉ l) :
    splitOnChar sep l = [l] := by
  induction l with
  | nil => rfl
  | cons c rest ih =>
      have hc : ¬ c = sep := fun hh => h (hh ▸ List.mem_cons_self c rest)
      have hr : sep ∉ rest := fun hh => h (List.mem_cons_of_mem c hh)
      unfold splitOnChar
      rw [if_neg hc, ih hr]

theorem splitOnChar_cons (sep c : Char) (rest : List Char) :
    splitOnChar sep (c :: rest) =
      if c = sep then [] :: splitOnChar sep rest
      else match splitOnChar sep rest with
        | [] => [[c]]
        | p :: ps => (c :: p) :: ps := rfl

theorem splitOnChar_append (sep : Char) (x y : List Char) :
    splitOnChar sep (x ++ sep :: y) = splitOnChar sep x ++ splitOnChar sep y := by
  induction x with
  | nil => simp [splitOnChar]
  | cons c rest ih =>
      obtain ⟨p, ps, hps⟩ := List.exists_cons_of_ne_nil (splitOnChar_ne_nil sep rest)
      by_cases hc : c = sep
      · rw [List.cons_append, splitOnChar_cons, if_pos hc, ih, splitOnChar_cons, if_pos hc,
          List.cons_append]
      · have hmid : splitOnChar sep (rest ++ sep :: y) = p :: (ps ++ splitOnChar sep y) := by
          rw [ih, hps, List.cons_append]
        rw [List.cons_append, splitOnChar_cons, if_neg hc, hmid, splitOnChar_cons, if_neg hc,
          hps]
        rfl

theorem intercalate_cons_head (sep c : Char) (p : List Char) (ps : List (List Char)) :
    List.intercalate [sep] ((c :: p) :: ps) = c :: List.intercalate [sep] (p :: ps) := by
  cases ps with
  | nil => simp [List.intercalate]
  | cons q qs => simp [List.intercalate]

theorem intercalate_nil_head (sep : Char) (p : List Char) (ps : List (List Char)) :
    List.intercalate [sep] ([] :: p :: ps) = sep :: List.intercalate [sep] (p :: ps) := by
  simp [List.intercalate]

theorem intercalate_splitOnChar (sep : Char) (l : List Char) :
    List.intercalate [sep] (splitOnChar sep l) = l := by
  induction l with
  | nil => simp [splitOnChar, List.intercalate]
  | cons c rest ih =>
      obtain ⟨p, ps, hps⟩ := List.exists_cons_of_ne_nil (splitOnChar_ne_nil sep rest)
      by_cases hc : c = sep
      · rw [splitOnChar_cons, if_pos hc, hps, intercalate_nil_head, ← hps, ih, hc]
      · rw [splitOnChar_cons, if_neg hc, hps]
        show List.intercalate [sep] ((c :: p) :: ps) = c :: rest
        rw [intercalate_cons_head, ← hps, ih]

theorem parseOriginal_backup_name (f ts tid : String)
    (hts : '.' ∉ ts.data) (htid : '.' ∉ tid.data) :
    parseOriginal (f ++ "." ++ ts ++ "." ++ tid ++ ".bak") = f := by
  unfold parseOriginal
  have hdata : (f ++ "." ++ ts ++ "." ++ tid ++ ".bak").data
      = f.data ++ '.' :: (ts.data ++ '.' :: (tid.data ++ '.' :: ['b', 'a', 'k'])) := by
    simp [String.data_append]
  rw [hdata, splitOnChar_append, splitOnChar_append, splitOnChar_append,
    splitOnChar_no_sep _ _ hts, splitOnChar_no_sep _ _ htid]
  have hbak : splitOnChar '.' ['b', 'a', 'k'] = [['b', 'a', 'k']] := by decide
  rw [hbak]
  dsimp only
  have hlen : (splitOnChar '.' f.data ++ ([ts.data] ++ ([tid.data] ++ [['b', 'a', 'k']]))).length
      - 3 = (splitOnChar '.' f.data).length := by
    simp
  rw [hlen, List.take_left]
  unfold joinWithChar
  rw [intercalate_splitOnChar]
  rfl

theorem goodToken_no_dot (s : String) (h : goodToken s = true) : '.' ∉ s.data := by
  intro hmem
  unfold goodToken at h
  rw [Bool.and_eq_true] at h
  have := (List.all_eq_true.mp h.2) '.' hmem
  exact absurd this (by decide)

theorem goodToken_no_slash (s : String) (h : goodToken s = true) : '/' ∉ s.data := by
  intro hmem
  unfold goodToken at h
  rw [Bool.and_eq_true] at h
  have := (List.all_eq_true.mp h.2) '/' hmem
  exact absurd this (by decide)

theorem goodToken_ne_empty (s : String) (h : goodToken s = true) : s ≠ "" := by
  unfold goodToken at h
  rw [Bool.and_eq_true] at h
  exact of_decide_eq_true h.1

/-! ### Path-algebra lemmas -/

theorem splitSegs_single (s : String) (h1 : '/' ∉ s.data) (h2 : s ≠ "") (h3 : s ≠ ".") :
    splitSegs s = [s] := by
  unfold splitSegs
  rw [splitOnChar_no_sep _ _ h1]
  have : strOfChars s.data = s := rfl
  simp [this, h2, h3]

theorem strStartsWith_slash_false (s : String) (h1 : '/' ∉ s.data) :
    strStartsWith s "/" = false := by
  unfold strStartsWith
  cases hd : s.data with
  | nil => rfl
  | cons c cs =>
      by_cases hc : '/' = c
      · exact absurd (hd ▸ (hc ▸ List.mem_cons_self c cs)) h1
      · show (['/'].isPrefixOf (c :: cs)) = false
        simp [List.isPrefixOf, hc]

theorem joinPath_flat (p : PPath) (s : String) (h1 : '/' ∉ s.data) (h2 : s ≠ "")
    (h3 : s ≠ ".") : joinPath p s = ⟨p.absolute, p.segs ++ [s]⟩ := by
  unfold joinPath
  rw [strStartsWith_slash_false s h1]
  simp [splitSegs_single s h1 h2 h3]

theorem resolveP_concat (p : PPath) (s : String) (h : s ≠ "..") :
    resolveP ⟨p.absolute, p.segs ++ [s]⟩ = resolveP p ++ [s] := by
  unfold resolveP
  rw [List.foldl_append]
  simp [h]

theorem lexParent_concat (p : PPath) (s : String) :
    lexParent ⟨p.absolute, p.segs ++ [s]⟩ = p := by
  simp [lexParent]

theorem mkdirParents_existing (fs : FS) (p : List String) (h : fs.isDir p = true) :
    fs.mkdirParents p = some fs := by
  unfold FS.mkdirParents mkdirPAux
  rw [h]
  rfl

theorem writeFile_concat (fs : FS) (d : List String) (s c : String)
    (hnd : fs.isDir (d ++ [s]) = false) (hd : fs.isDir d = true) :
    fs.writeFile (d ++ [s]) c = some { fs with files := aInsert fs.files (d ++ [s]) c } := by
  unfold FS.writeFile
  rw [hnd, List.dropLast_concat, hd]
  rfl

theorem isPrefixOf_append_self {α : Type} [BEq α] [LawfulBEq α] (l t : List α) :
    l.isPrefixOf (l ++ t) = true := by
  induction l with
  | nil => simp [List.isPrefixOf]
  | cons a l ih => simp [List.isPrefixOf, ih]

theorem isSuffixOf_append_self {α : Type} [BEq α] [LawfulBEq α] (t l : List α) :
    l.isSuffixOf (t ++ l) = true := by
  unfold List.isSuffixOf
  rw [List.reverse_append]
  exact isPrefixOf_append_self _ _

/-! ### Specifications of the file-manager components on well-formed states -/

theorem create_backup_spec (fm : FileManager) (fs : FS) (f v tid ts : String)
    (h1 : '/' ∉ (f ++ "." ++ ts ++ "." ++ tid ++ ".bak").data)
    (h2 : (f ++ "." ++ ts ++ "." ++ tid ++ ".bak") ≠ "")
    (h3 : (f ++ "." ++ ts ++ "." ++ tid ++ ".bak") ≠ ".")
    (h4 : (f ++ "." ++ ts ++ "." ++ tid ++ ".bak") ≠ "..")
    (hB : fs.isDir (resolveP fm.backupDir) = true)
    (hKnd : fs.isDir (resolveP fm.backupDir ++ [f ++ "." ++ ts ++ "." ++ tid ++ ".bak"])
      = false) :
    create_backup fm fs f v tid ts =
      (ppathStr (joinPath fm.backupDir (f ++ "." ++ ts ++ "." ++ tid ++ ".bak")),
       { files := aInsert fs.files
           (resolveP fm.backupDir ++ [f ++ "." ++ ts ++ "." ++ tid ++ ".bak"]) v,
         dirs := fs.dirs }) := by
  unfold create_backup
  dsimp only
  rw [joinPath_flat fm.backupDir _ h1 h2 h3, lexParent_concat, resolveP_concat _ _ h4,
    mkdirParents_existing fs _ hB]
  dsimp only
  rw [writeFile_concat fs _ _ v hKnd hB]

theorem write_file_safe_live (fm : FileManager) (fs fs_b : FS) (f c v tid ts bk : String)
    (hdry : fm.dry_run = false)
    (hf1 : '/' ∉ f.data) (hf2 : f ≠ "") (hf3 : f ≠ ".") (hf4 : f ≠ "..")
    (hO : fs.isDir (resolveP fm.output_dir) = true)
    (hTnd : fs.isDir (resolveP fm.output_dir ++ [f]) = false)
    (hold : aGet fs.files (resolveP fm.output_dir ++ [f]) = some v)
    (hcb : create_backup fm fs f v tid ts = (bk, fs_b))
    (hbd : fs_b.dirs = fs.dirs) :
    write_file_safe fm fs f c tid ts =
      ({ success := true,
         diff := generate_diff v c (ppathStr (joinPath fm.output_dir f)),
         backup := some bk, error := "" },
       FS.mk (aInsert fs_b.files (resolveP fm.output_dir ++ [f]) c) fs_b.dirs,
       FileManager.mk fm.output_dir fm.dry_run
         (update_file_history fm
           (FS.mk (aInsert fs_b.files (resolveP fm.output_dir ++ [f]) c) fs_b.dirs)
           f tid c.length ts)) := by
  have hdirs : ∀ p, fs_b.isDir p = fs.isDir p := by
    intro p
    unfold FS.isDir
    rw [hbd]
  unfold write_file_safe
  dsimp only
  rw [joinPath_flat fm.output_dir _ hf1 hf2 hf3, lexParent_concat, resolveP_concat _ _ hf4,
    mkdirParents_existing fs _ hO]
  dsimp only
  simp only [hTnd, hold, hdry, hcb, Bool.false_eq_true, if_false]
  rw [writeFile_concat fs_b _ _ c ((hdirs _).trans hTnd) ((hdirs _).trans hO)]

theorem save_history_spec (fm : FileManager) (fs : FS)
    (hdry : fm.dry_run = false)
    (hHnd : fs.isDir (resolveP fm.historyFile) = false)
    (hpar : fs.isDir ((resolveP fm.historyFile).dropLast) = true) :
    save_history fm fs =
      { files := aInsert fs.files (resolveP fm.historyFile) (encodeHistory fm.history),
        dirs := fs.dirs } := by
  unfold save_history
  rw [hdry]
  unfold FS.writeFile
  rw [hHnd, hpar]
  rfl

theorem restore_backup_spec (fm : FileManager) (fs : FS) (bp : List String) (f v : String)
    (hdry : fm.dry_run = false)
    (hget : aGet fs.files bp = some v)
    (hf1 : '/' ∉ f.data) (hf2 : f ≠ "") (hf3 : f ≠ ".") (hf4 : f ≠ "..")
    (hO : fs.isDir (resolveP fm.output_dir) = true)
    (hTnd : fs.isDir (resolveP fm.output_dir ++ [f]) = false) :
    restore_backup fm fs bp f =
      (true, { files := aInsert fs.files (resolveP fm.output_dir ++ [f]) v,
               dirs := fs.dirs }) := by
  unfold restore_backup
  rw [hdry]
  dsimp only
  rw [hget]
  dsimp only
  rw [joinPath_flat fm.output_dir _ hf1 hf2 hf3, lexParent_concat, resolveP_concat _ _ hf4,
    mkdirParents_existing fs _ hO]
  dsimp only
  rw [writeFile_concat fs _ _ v hTnd hO]
  rfl

/-! ### Glob and rollback lemmas -/

theorem mem_globMatches_of (fs : FS) (B : List String) (bname : String) (suff : List Char)
    (hsuf : suff.isSuffixOf bname.data = true)
    (hmem : (B ++ [bname]) ∈ fs.files.map Prod.fst ++ fs.dirs) :
    (B ++ [bname]) ∈ globMatches fs B suff := by
  unfold globMatches
  apply List.mem_filterMap.mpr
  refine ⟨B ++ [bname], hmem, ?_⟩
  simp [List.dropLast_concat, List.getLast?_concat, hsuf]

theorem globMatches_insert3 (fs : FS) (B : List String) (bname : String) (suff : List Char)
    (rp H : List String) (v c e : String)
    (hnoB : globMatches fs B suff = [])
    (hKnone : aGet fs.files (B ++ [bname]) = none)
    (hrpS : (aGet (aInsert fs.files (B ++ [bname]) v) rp).isSome = true)
    (hsuf : suff.isSuffixOf bname.data = true)
    (hHd : ¬ H.dropLast = B) :
    globMatches
      (FS.mk (aInsert (aInsert (aInsert fs.files (B ++ [bname]) v) rp c) H e) fs.dirs)
      B suff = [B ++ [bname]] := by
  have hsuf2 : suff <:+ bname.data := by simpa using hsuf
  unfold globMatches at hnoB ⊢
  rw [List.filterMap_append] at hnoB
  obtain ⟨hnf, hnd⟩ := List.append_eq_nil.mp hnoB
  cases hgh : aGet (aInsert (aInsert fs.files (B ++ [bname]) v) rp c) H with
  | none =>
      dsimp only
      rw [aInsert_map_fst_new _ _ _ hgh, aInsert_map_fst_mem _ _ _ hrpS,
        aInsert_map_fst_new _ _ _ hKnone, List.filterMap_append, List.filterMap_append,
        List.filterMap_append, hnf, hnd]
      simp [List.filterMap_cons, List.dropLast_concat, List.getLast?_concat, hsuf2, hHd]
  | some w =>
      dsimp only
      rw [aInsert_map_fst_mem _ _ _ (by rw [hgh]; rfl), aInsert_map_fst_mem _ _ _ hrpS,
        aInsert_map_fst_new _ _ _ hKnone, List.filterMap_append, List.filterMap_append,
        hnf, hnd]
      simp [List.filterMap_cons, List.dropLast_concat, List.getLast?_concat, hsuf2]

theorem globMatches_insert_existing (m : List (List String × String))
    (d : List (List String)) (k : List String) (v : String) (B : List String)
    (suff : List Char) (hk : (aGet m k).isSome = true) :
    globMatches (FS.mk (aInsert m k v) d) B suff = globMatches (FS.mk m d) B suff := by
  unfold globMatches
  dsimp only
  rw [aInsert_map_fst_mem _ _ _ hk]

theorem save_history_mk_spec (fm : FileManager) (hist : List (String × List HistEntry))
    (files2 : List (List String × String)) (dirs2 : List (List String))
    (hdry : fm.dry_run = false)
    (hHnd : dirs2.contains (resolveP fm.historyFile) = false)
    (hpar : dirs2.contains ((resolveP fm.historyFile).dropLast) = true) :
    save_history (FileManager.mk fm.output_dir fm.dry_run hist) (FS.mk files2 dirs2) =
      FS.mk (aInsert files2 (resolveP fm.historyFile) (encodeHistory hist)) dirs2 :=
  save_history_spec (FileManager.mk fm.output_dir fm.dry_run hist) (FS.mk files2 dirs2)
    hdry hHnd hpar

theorem restore_backup_mk_spec (fm : FileManager) (files2 : List (List String × String))
    (dirs2 : List (List String)) (bp : List String) (f v : String)
    (hdry : fm.dry_run = false)
    (hget : aGet files2 bp = some v)
    (hf1 : '/' ∉ f.data) (hf2 : f ≠ "") (hf3 : f ≠ ".") (hf4 : f ≠ "..")
    (hO : dirs2.contains (resolveP fm.output_dir) = true)
    (hTnd : dirs2.contains (resolveP fm.output_dir ++ [f]) = false) :
    restore_backup fm (FS.mk files2 dirs2) bp f =
      (true, FS.mk (aInsert files2 (resolveP fm.output_dir ++ [f]) v) dirs2) :=
  restore_backup_spec fm (FS.mk files2 dirs2) bp f v hdry hget hf1 hf2 hf3 hf4 hO hTnd

theorem rollback_single (fm : FileManager) (fsX fsY : FS) (tid : String) (K : List String)
    (f : String)
    (hglob : globMatches fsX (resolveP fm.backupDir) (("." ++ tid ++ ".bak").data) = [K])
    (hname : parseOriginal (K.getLastD "") = f)
    (hrest : restore_backup fm fsX K f = (true, fsY)) :
    rollback_to_task fm fsX tid = (⟨[f], []⟩, fsY) := by
  unfold rollback_to_task
  dsimp only
  rw [hglob]
  show rollback_step fm ({ restored := [], failed := [] }, fsX) K = (⟨[f], []⟩, fsY)
  unfold rollback_step
  dsimp only
  rw [hname, hrest]
  rfl

/-- C3 (amended): the rollback round-trip holds exactly for batches whose
target paths are *flat* (no directory separator) — those are the paths whose
backups land directly in the backup root, where the non-recursive glob of
`rollback_to_task` can find them again.  For a live (non-dry-run) engine, a
flat filename `f` other than the history file, glob-safe work-unit id and
timestamp tokens, existing output and backup directories, an existing target
file with content `v`, and no pre-existing backups for this work-unit id:
the batch leaves a backup holding `v`; rollback restores the target to `v`
byte-for-byte and reports exactly it; the backup file is not deleted; and a
second rollback returns the same result and the same filesystem
(idempotence).  For nested target paths the property fails — see the
counterexample. -/
theorem rollback_restores_flat_batch (fm : FileManager) (fs : FS) (f c v tid ts : String)
    (hdry : fm.dry_run = false)
    (hflat : isFlatName f = true)
    (hfname : f ≠ "file_history.json")
    (htid : goodToken tid = true) (hts : goodToken ts = true)
    (hO : fs.isDir (resolveP fm.output_dir) = true)
    (hB : fs.isDir (resolveP fm.backupDir) = true)
    (hold : aGet fs.files (resolveP fm.output_dir ++ [f]) = some v)
    (hTnd : fs.isDir (resolveP fm.output_dir ++ [f]) = false)
    (hHnd : fs.isDir (resolveP fm.historyFile) = false)
    (hnoB : globMatches fs (resolveP fm.backupDir) (("." ++ tid ++ ".bak").data) = []) :
    aGet (write_files fm fs [(f, c)] tid [ts]).2.1.files
        (resolveP fm.backupDir ++ [f ++ "." ++ ts ++ "." ++ tid ++ ".bak"]) = some v ∧
    (rollback_to_task fm (write_files fm fs [(f, c)] tid [ts]).2.1 tid).1.restored = [f] ∧
    (rollback_to_task fm (write_files fm fs [(f, c)] tid [ts]).2.1 tid).1.failed = [] ∧
    aGet (rollback_to_task fm (write_files fm fs [(f, c)] tid [ts]).2.1 tid).2.files
        (resolveP fm.output_dir ++ [f]) = some v ∧
    aGet (rollback_to_task fm (write_files fm fs [(f, c)] tid [ts]).2.1 tid).2.files
        (resolveP fm.backupDir ++ [f ++ "." ++ ts ++ "." ++ tid ++ ".bak"]) = some v ∧
    rollback_to_task fm
        (rollback_to_task fm (write_files fm fs [(f, c)] tid [ts]).2.1 tid).2 tid
      = rollback_to_task fm (write_files fm fs [(f, c)] tid [ts]).2.1 tid := by
  have hflat2 := hflat
  unfold isFlatName at hflat2
  rw [Bool.and_eq_true, Bool.and_eq_true, Bool.and_eq_true] at hflat2
  obtain ⟨⟨⟨hfcon, hf2d⟩, hf3d⟩, hf4d⟩ := hflat2
  have hf2 : f ≠ "" := of_decide_eq_true hf2d
  have hf3 : f ≠ "." := of_decide_eq_true hf3d
  have hf4 : f ≠ ".." := of_decide_eq_true hf4d
  have hf1 : '/' ∉ f.data := by
    intro hm
    have h2 : f.data.contains '/' = true := List.elem_iff.mpr hm
    rw [h2] at hfcon
    exact absurd hfcon (by decide)
  have htsd : '.' ∉ ts.data := goodToken_no_dot ts hts
  have htidd : '.' ∉ tid.data := goodToken_no_dot tid htid
  have htss : '/' ∉ ts.data := goodToken_no_slash ts hts
  have htids : '/' ∉ tid.data := goodToken_no_slash tid htid
  have hb1 : '/' ∉ (f ++ "." ++ ts ++ "." ++ tid ++ ".bak").data := by
    intro hm
    simp only [String.data_append, List.mem_append] at hm
    rcases hm with ((((hm | hm) | hm) | hm) | hm) | hm
    · exact hf1 hm
    · exact absurd hm (by decide)
    · exact htss hm
    · exact absurd hm (by decide)
    · exact htids hm
    · exact absurd hm (by decide)
  have hblen : (f ++ "." ++ ts ++ "." ++ tid ++ ".bak").data.length
      = f.data.length + ts.data.length + tid.data.length + 6 := by
    simp only [String.data_append, List.length_append]
    have e1 : ".".data.length = 1 := rfl
    have e2 : ".bak".data.length = 4 := rfl
    rw [e1, e2]
    omega
  have hb2 : (f ++ "." ++ ts ++ "." ++ tid ++ ".bak") ≠ "" := by
    intro h
    have h2 : (f ++ "." ++ ts ++ "." ++ tid ++ ".bak").data.length = 0 := by rw [h]; rfl
    rw [hblen] at h2
    omega
  have hb3 : (f ++ "." ++ ts ++ "." ++ tid ++ ".bak") ≠ "." := by
    intro h
    have h2 : (f ++ "." ++ ts ++ "." ++ tid ++ ".bak").data.length = 1 := by rw [h]; rfl
    rw [hblen] at h2
    omega
  have hb4 : (f ++ "." ++ ts ++ "." ++ tid ++ ".bak") ≠ ".." := by
    intro h
    have h2 : (f ++ "." ++ ts ++ "." ++ tid ++ ".bak").data.length = 2 := by rw [h]; rfl
    rw [hblen] at h2
    omega
  have hsuf : (("." ++ tid ++ ".bak").data).isSuffixOf
      (f ++ "." ++ ts ++ "." ++ tid ++ ".bak").data = true := by
    have hsplit : (f ++ "." ++ ts ++ "." ++ tid ++ ".bak").data
        = (f ++ "." ++ ts).data ++ ("." ++ tid ++ ".bak").data := by
      simp [String.data_append]
    rw [hsplit]
    exact isSuffixOf_append_self _ _
  have hBO : resolveP fm.backupDir = resolveP fm.output_dir ++ ["backups"] := by
    unfold FileManager.backupDir
    rw [joinPath_flat fm.output_dir "backups" (by decide) (by decide) (by decide)]
    exact resolveP_concat fm.output_dir "backups" (by decide)
  have hH : resolveP fm.historyFile = resolveP fm.output_dir ++ ["file_history.json"] := by
    unfold FileManager.historyFile
    rw [joinPath_flat fm.output_dir "file_history.json" (by decide) (by decide) (by decide)]
    exact resolveP_concat fm.output_dir "file_history.json" (by decide)
  have hrpK : resolveP fm.output_dir ++ [f]
      ≠ resolveP fm.backupDir ++ [f ++ "." ++ ts ++ "." ++ tid ++ ".bak"] := by
    rw [hBO]
    intro h
    have h2 := congrArg List.length h
    simp only [List.length_append, List.length_cons, List.length_nil] at h2
    omega
  have hKH : resolveP fm.backupDir ++ [f ++ "." ++ ts ++ "." ++ tid ++ ".bak"]
      ≠ resolveP fm.historyFile := by
    rw [hBO, hH]
    intro h
    have h2 := congrArg List.length h
    simp only [List.length_append, List.length_cons, List.length_nil] at h2
    omega
  have hHrp : resolveP fm.historyFile ≠ resolveP fm.output_dir ++ [f] := by
    rw [hH]
    intro h
    have h2 := List.append_cancel_left h
    simp only [List.cons.injEq] at h2
    exact hfname h2.1.symm
  have hOB : ¬ resolveP fm.output_dir = resolveP fm.backupDir := by
    rw [hBO]
    intro h
    have h2 := congrArg List.length h
    simp only [List.length_append, List.length_cons, List.length_nil] at h2
    omega
  have hHd : ¬ (resolveP fm.historyFile).dropLast = resolveP fm.backupDir := by
    rw [hH, List.dropLast_concat]
    exact hOB
  have hKnone : aGet fs.files
      (resolveP fm.backupDir ++ [f ++ "." ++ ts ++ "." ++ tid ++ ".bak"]) = none := by
    cases hg : aGet fs.files
        (resolveP fm.backupDir ++ [f ++ "." ++ ts ++ "." ++ tid ++ ".bak"]) with
    | none => rfl
    | some w =>
        have hm := aGet_isSome_mem fs.files _ (by rw [hg]; rfl)
        have h2 := mem_globMatches_of fs (resolveP fm.backupDir) _ _ hsuf
          (List.mem_append_left _ hm)
        rw [hnoB] at h2
        exact absurd h2 (List.not_mem_nil _)
  have hKnd : fs.isDir
      (resolveP fm.backupDir ++ [f ++ "." ++ ts ++ "." ++ tid ++ ".bak"]) = false := by
    cases hg : fs.isDir
        (resolveP fm.backupDir ++ [f ++ "." ++ ts ++ "." ++ tid ++ ".bak"]) with
    | false => rfl
    | true =>
        have hm : (resolveP fm.backupDir ++ [f ++ "." ++ ts ++ "." ++ tid ++ ".bak"])
            ∈ fs.dirs := List.elem_iff.mp hg
        have h2 := mem_globMatches_of fs (resolveP fm.backupDir) _ _ hsuf
          (List.mem_append_right _ hm)
        rw [hnoB] at h2
        exact absurd h2 (List.not_mem_nil _)
  have hcb := create_backup_spec fm fs f v tid ts hb1 hb2 hb3 hb4 hB hKnd
  have hrpS : (aGet (aInsert fs.files
      (resolveP fm.backupDir ++ [f ++ "." ++ ts ++ "." ++ tid ++ ".bak"]) v)
      (resolveP fm.output_dir ++ [f])).isSome = true := by
    rw [aGet_insert_ne _ _ _ _ hrpK, hold]
    rfl
  have hwfs := write_file_safe_live fm fs _ f c v tid ts _ hdry hf1 hf2 hf3 hf4 hO hTnd
    hold hcb rfl
  have hHpar : fs.isDir ((resolveP fm.historyFile).dropLast) = true := by
    rw [hH, List.dropLast_concat]
    exact hO
  obtain ⟨e, hout⟩ : ∃ e, (write_files fm fs [(f, c)] tid [ts]).2.1
      = FS.mk (aInsert (aInsert (aInsert fs.files
          (resolveP fm.backupDir ++ [f ++ "." ++ ts ++ "." ++ tid ++ ".bak"]) v)
          (resolveP fm.output_dir ++ [f]) c) (resolveP fm.historyFile) e) fs.dirs :=
    ⟨_, by
      show save_history (write_file_safe fm fs f c tid ts).2.2
          (write_file_safe fm fs f c tid ts).2.1 = _
      rw [hwfs]
      dsimp only
      exact save_history_mk_spec fm _ _ _ hdry hHnd hHpar⟩
  have hglobM : globMatches (FS.mk (aInsert (aInsert (aInsert fs.files
      (resolveP fm.backupDir ++ [f ++ "." ++ ts ++ "." ++ tid ++ ".bak"]) v)
      (resolveP fm.output_dir ++ [f]) c) (resolveP fm.historyFile) e) fs.dirs)
      (resolveP fm.backupDir) (("." ++ tid ++ ".bak").data)
      = [resolveP fm.backupDir ++ [f ++ "." ++ ts ++ "." ++ tid ++ ".bak"]] :=
    globMatches_insert3 fs _ _ _ _ _ v c e hnoB hKnone hrpS hsuf hHd
  have hname : parseOriginal ((resolveP fm.backupDir
      ++ [f ++ "." ++ ts ++ "." ++ tid ++ ".bak"]).getLastD "") = f := by
    rw [List.getLastD_concat]
    exact parseOriginal_backup_name f ts tid htsd htidd
  have hgetK : aGet (aInsert (aInsert (aInsert fs.files
      (resolveP fm.backupDir ++ [f ++ "." ++ ts ++ "." ++ tid ++ ".bak"]) v)
      (resolveP fm.output_dir ++ [f]) c) (resolveP fm.historyFile) e)
      (resolveP fm.backupDir ++ [f ++ "." ++ ts ++ "." ++ tid ++ ".bak"]) = some v := by
    rw [aGet_insert_ne _ _ _ _ hKH, aGet_insert_ne _ _ _ _ (Ne.symm hrpK)]
    exact aGet_insert_self _ _ _
  have hrest := restore_backup_mk_spec fm _ _ _ f v hdry hgetK hf1 hf2 hf3 hf4 hO hTnd
  have hroll1 : rollback_to_task fm (write_files fm fs [(f, c)] tid [ts]).2.1 tid
      = (RollbackResult.mk [f] [],
         FS.mk (aInsert (aInsert (aInsert (aInsert fs.files
             (resolveP fm.backupDir ++ [f ++ "." ++ ts ++ "." ++ tid ++ ".bak"]) v)
             (resolveP fm.output_dir ++ [f]) c) (resolveP fm.historyFile) e)
           (resolveP fm.output_dir ++ [f]) v) fs.dirs) := by
    rw [hout]
    exact rollback_single fm _ _ tid _ f hglobM hname hrest
  have hrp3 : (aGet (aInsert (aInsert (aInsert fs.files
      (resolveP fm.backupDir ++ [f ++ "." ++ ts ++ "." ++ tid ++ ".bak"]) v)
      (resolveP fm.output_dir ++ [f]) c) (resolveP fm.historyFile) e)
      (resolveP fm.output_dir ++ [f])).isSome = true := by
    rw [aGet_insert_ne _ _ _ _ (Ne.symm hHrp), aGet_insert_self]
    rfl
  have hglobY : globMatches (FS.mk (aInsert (aInsert (aInsert (aInsert fs.files
      (resolveP fm.backupDir ++ [f ++ "." ++ ts ++ "." ++ tid ++ ".bak"]) v)
      (resolveP fm.output_dir ++ [f]) c) (resolveP fm.historyFile) e)
      (resolveP fm.output_dir ++ [f]) v) fs.dirs)
      (resolveP fm.backupDir) (("." ++ tid ++ ".bak").data)
      = [resolveP fm.backupDir ++ [f ++ "." ++ ts ++ "." ++ tid ++ ".bak"]] := by
    rw [globMatches_insert_existing _ _ _ _ _ _ hrp3]
    exact hglobM
  have hgetKY : aGet (aInsert (aInsert (aInsert (aInsert fs.files
      (resolveP fm.backupDir ++ [f ++ "." ++ ts ++ "." ++ tid ++ ".bak"]) v)
      (resolveP fm.output_dir ++ [f]) c) (resolveP fm.historyFile) e)
      (resolveP fm.output_dir ++ [f]) v)
      (resolveP fm.backupDir ++ [f ++ "." ++ ts ++ "." ++ tid ++ ".bak"]) = some v := by
    rw [aGet_insert_ne _ _ _ _ (Ne.symm hrpK)]
    exact hgetK
  have hrestY := restore_backup_mk_spec fm _ _ _ f v hdry hgetKY hf1 hf2 hf3 hf4 hO hTnd
  have hself : aInsert (aInsert (aInsert (aInsert (aInsert fs.files
      (resolveP fm.backupDir ++ [f ++ "." ++ ts ++ "." ++ tid ++ ".bak"]) v)
      (resolveP fm.output_dir ++ [f]) c) (resolveP fm.historyFile) e)
      (resolveP fm.output_dir ++ [f]) v) (resolveP fm.output_dir ++ [f]) v
      = aInsert (aInsert (aInsert (aInsert fs.files
      (resolveP fm.backupDir ++ [f ++ "." ++ ts ++ "." ++ tid ++ ".bak"]) v)
      (resolveP fm.output_dir ++ [f]) c) (resolveP fm.historyFile) e)
      (resolveP fm.output_dir ++ [f]) v :=
    aInsert_self _ _ _ (aGet_insert_self _ _ _)
  rw [hself] at hrestY
  have hroll2 : rollback_to_task fm (FS.mk (aInsert (aInsert (aInsert (aInsert fs.files
      (resolveP fm.backupDir ++ [f ++ "." ++ ts ++ "." ++ tid ++ ".bak"]) v)
      (resolveP fm.output_dir ++ [f]) c) (resolveP fm.historyFile) e)
      (resolveP fm.output_dir ++ [f]) v) fs.dirs) tid
      = (RollbackResult.mk [f] [],
         FS.mk (aInsert (aInsert (aInsert (aInsert fs.files
             (resolveP fm.backupDir ++ [f ++ "." ++ ts ++ "." ++ tid ++ ".bak"]) v)
             (resolveP fm.output_dir ++ [f]) c) (resolveP fm.historyFile) e)
           (resolveP fm.output_dir ++ [f]) v) fs.dirs) :=
    rollback_single fm _ _ tid _ f hglobY hname hrestY
  refine ⟨?_, ?_, ?_, ?_, ?_, ?_⟩
  · rw [hout]
    exact hgetK
  · rw [hroll1]
  · rw [hroll1]
  · rw [hroll1]
    exact aGet_insert_self _ _ _
  · rw [hroll1]
    exact hgetKY
  · rw [hroll1]
    exact hroll2

theorem rollback_restores_flat_batch_witness :
    (fmLive.dry_run = false ∧ isFlatName "a.py" = true ∧
     aGet fsFlat.files (resolveP fmLive.output_dir ++ ["a.py"]) = some "old" ∧
     globMatches fsFlat (resolveP fmLive.backupDir) (("." ++ "T1" ++ ".bak").data) = []) ∧
    (aGet (write_files fmLive fsFlat [("a.py", "new")] "T1" ["20250101_000000"]).2.1.files
        (resolveP fmLive.backupDir
          ++ ["a.py" ++ "." ++ "20250101_000000" ++ "." ++ "T1" ++ ".bak"]) = some "old" ∧
     (rollback_to_task fmLive
        (write_files fmLive fsFlat [("a.py", "new")] "T1" ["20250101_000000"]).2.1
        "T1").1.restored = ["a.py"] ∧
     (rollback_to_task fmLive
        (write_files fmLive fsFlat [("a.py", "new")] "T1" ["20250101_000000"]).2.1
        "T1").1.failed = [] ∧
     aGet (rollback_to_task fmLive
        (write_files fmLive fsFlat [("a.py", "new")] "T1" ["20250101_000000"]).2.1
        "T1").2.files (resolveP fmLive.output_dir ++ ["a.py"]) = some "old" ∧
     aGet (rollback_to_task fmLive
        (write_files fmLive fsFlat [("a.py", "new")] "T1" ["20250101_000000"]).2.1
        "T1").2.files (resolveP fmLive.backupDir
          ++ ["a.py" ++ "." ++ "20250101_000000" ++ "." ++ "T1" ++ ".bak"]) = some "old" ∧
     rollback_to_task fmLive
        (rollback_to_task fmLive
          (write_files fmLive fsFlat [("a.py", "new")] "T1" ["20250101_000000"]).2.1
          "T1").2 "T1"
       = rollback_to_task fmLive
          (write_files fmLive fsFlat [("a.py", "new")] "T1" ["20250101_000000"]).2.1
          "T1") :=
  ⟨⟨by decide, by decide, by decide, by decide⟩,
   rollback_restores_flat_batch fmLive fsFlat "a.py" "new" "old" "T1" "20250101_000000"
     (by decide) (by decide) (by decide) (by decide) (by decide) (by decide) (by decide)
     (by decide) (by decide) (by decide) (by decide)⟩

end CodingAgent
